import Mathlib

/-!
Shallow embedding of git-backport's `src/lib.rs` (`backport` and its helper
functions) and verification of a list of claims about it.

Modelling conventions:
- git object ids (`Oid`) are natural numbers; the object store (`Repo`) is an
  association list of commit payloads plus the branch-ref table and a fresh-id
  counter; creating a commit allocates the counter value.
- `HashMap`/`HashSet` become association lists with first-match lookup
  (inserts cons at the front, shadowing earlier entries, which has the same
  lookup semantics as in-place replacement).
- every Rust `panic!`/`unwrap`/`assert!`/`todo!` site becomes a distinct
  constructor of `Panic`; a run that panics is modelled as `Except.error`.
  Rust recursion and loops whose termination depends on the repository being
  acyclic are given explicit fuel; fuel exhaustion is a `Panic` constructor of
  its own (it corresponds to a diverging run on a cyclic store).
- the tree-level effects of `merge_commits` / `cherrypick_commit` /
  `write_tree_to` are abstracted into a `Store` oracle which either produces a
  merged tree id or reports a conflict.
-/

namespace GitBackport

/-- Decidable equality for `Except`, used to evaluate runs inside proofs. -/
instance {ε α : Type} [DecidableEq ε] [DecidableEq α] : DecidableEq (Except ε α) := fun x y =>
  match x, y with
  | .ok a, .ok b =>
    if h : a = b then isTrue (by rw [h]) else isFalse (by intro hc; cases hc; exact h rfl)
  | .error a, .error b =>
    if h : a = b then isTrue (by rw [h]) else isFalse (by intro hc; cases hc; exact h rfl)
  | .ok _, .error _ => isFalse (by intro hc; cases hc)
  | .error _, .ok _ => isFalse (by intro hc; cases hc)

/-- Object ids (git oids), modelled as natural numbers. -/
abbrev Oid := Nat

/-- Association-list lookup with `Oid` keys; models `HashMap` lookup.
First match wins, so consing a new pair shadows older entries exactly like an
in-place `insert`. -/
def alookup {β : Type} : List (Oid × β) → Oid → Option β
  | [], _ => none
  | (k, v) :: rest, a => if k = a then some v else alookup rest a

/-- Association-list insert (shadowing); models `HashMap::insert`'s effect on
subsequent lookups. -/
def ainsert {β : Type} (m : List (Oid × β)) (k : Oid) (v : β) : List (Oid × β) :=
  (k, v) :: m

/-- Ref-table lookup keyed by branch-name strings. -/
def rlookup {β : Type} : List (String × β) → String → Option β
  | [], _ => none
  | (k, v) :: rest, a => if k = a then some v else rlookup rest a

/-- Positional list read; models slice indexing (`none` is the out-of-bounds
panic case). -/
def lget {α : Type} : List α → Nat → Option α
  | [], _ => none
  | x :: _, 0 => some x
  | _ :: xs, n + 1 => lget xs n

/-- Positional list write (out-of-bounds writes are a no-op; every use below
is guarded by a successful `lget` first, mirroring the Rust panic sites). -/
def lset {α : Type} : List α → Nat → α → List α
  | [], _, _ => []
  | _ :: xs, 0, v => v :: xs
  | x :: xs, n + 1, v => x :: lset xs n v

/-- Set the first `n` entries of a boolean list to `true`; models
`for dirty in dirty[0..n].iter_mut() \x7b *dirty = true \x7d`. -/
def markBelow : Nat → List Bool → List Bool
  | _, [] => []
  | 0, ds => ds
  | n + 1, _ :: ds => true :: markBelow n ds

/-- Commit messages: either an original text or the synthesized
`format!("Merge \x7b\x7d into \x7b\x7d", senior, junior)` merge message. -/
inductive Msg
  | text (s : String)
  | mergeOf (senior : String) (junior : String)
deriving DecidableEq, Repr

/-- Commit payload as read through the object store: ordered parent id list,
author and committer identities, message, tree id. -/
structure CommitData where
  parents : List Oid
  author : Nat
  committer : Nat
  message : Msg
  tree : Nat
deriving DecidableEq, Repr

/-- The object store plus the branch-ref table. `nextOid` is the id the next
created commit receives (content-addressed ids are fresh in a real store; the
counter models that). -/
structure Repo where
  commits : List (Oid × CommitData)
  refs : List (String × Oid)
  nextOid : Oid
deriving DecidableEq, Repr

/-- Read a commit from the store (`find_commit` / dereferencing a parent). -/
def lookupCommit (r : Repo) (id : Oid) : Option CommitData :=
  alookup r.commits id

/-- Create a commit object: allocates the next fresh id. Models
`repository.commit(None, ...)`. -/
def createCommit (r : Repo) (d : CommitData) : Oid × Repo :=
  (r.nextOid,
   { commits := (r.nextOid, d) :: r.commits, refs := r.refs, nextOid := r.nextOid + 1 })

/-- An input branch: a named ref with its tip commit id (the result of
`branch.get().peel_to_commit()`). -/
structure Branch where
  name : String
  tip : Oid
deriving DecidableEq, Repr

/-- One collected work item: `BackportCommit` from the source — an original
commit id paired with its (editable) target branch index. -/
structure Item where
  commitId : Oid
  branchIndex : Nat
deriving DecidableEq, Repr

/-- Tree-level oracle for the two libgit2 operations the engine uses with
`find_renames(true).fail_on_conflict(true).minimal(true)`. `none` is a
conflict. -/
structure Store where
  mergeTrees : Oid → Oid → Option Nat
  cherryTree : Oid → Oid → Nat → Option Nat

/-- The public error type of `backport`: `pub enum Error \x7b\x7d` has no
variants, so this inductive has no constructors. -/
inductive Error

/-- Every Rust panic site of `backport`, one constructor per site. The fuel
constructors stand for runs that diverge on a non-well-founded store. -/
inductive Panic
  | emptyBranches
  | commitNotFound (id : Oid)
  | walkFuel
  | ancestryFuel
  | ambiguousParents (id : Oid) (found : Nat)
  | forkFuel
  | backupExhausted
  | headsIndexOOB (b : Nat)
  | dirtyIndexOOB (b : Nat)
  | dirtySliceOOB (b : Nat)
  | overlaysIndexOOB (b : Nat)
  | branchesIndexOOB (b : Nat)
  | missingHeadCatchUp (b : Nat)
  | inverseMapMissing (id : Oid)
  | catchUpFuel
  | mergeConflict
  | duplicateOverlayKey (id : Oid)
  | duplicateInverseCatchUp (id : Oid)
  | mainlineNotFound (id : Oid)
  | missingHeadCherry (b : Nat)
  | cherrypickConflict (id : Oid)
  | mapCommitFuel
  | todoUnmappedParent (id : Oid)
  | duplicateMapKey (id : Oid)
  | duplicateInverseCherry (id : Oid)
  | missingHeadRefUpdate (i : Nat)
deriving DecidableEq, Repr

/-- Task argument for the fueled `is_or_has_ancestor` DFS: either test one
commit, or run the short-circuiting `any` over a (already reversed) parent
list. -/
inductive ATask
  | one (c : Oid)
  | anyRev (ps : List Oid)

/-- `is_or_has_ancestor` from the source (collector, lines 77–88):
memoized DFS with a shared `visited` set. `visited.insert(c.id())` fails
(whole conjunction false) when the id was already visited; otherwise the
commit matches if its id is the target or some parent, scanned last-listed
first, reaches it. Each parent is loaded by the `parents()` iterator before
the recursive call (`commitNotFound` on a missing object). -/
def isOrHasAncestorAux (repo : Repo) (target : Oid) :
    Nat → ATask → List Oid → Except Panic (Bool × List Oid)
  | 0, _, _ => .error .ancestryFuel
  | fuel + 1, .one c, visited =>
    if visited.contains c then .ok (false, visited)
    else
      let visited := c :: visited
      if c = target then .ok (true, visited)
      else
        match lookupCommit repo c with
        | none => .error (.commitNotFound c)
        | some d => isOrHasAncestorAux repo target fuel (.anyRev d.parents.reverse) visited
  | _ + 1, .anyRev [], visited => .ok (false, visited)
  | fuel + 1, .anyRev (p :: ps), visited =>
    match lookupCommit repo p with
    | none => .error (.commitNotFound p)
    | some _ =>
      match isOrHasAncestorAux repo target fuel (.one p) visited with
      | .error e => .error e
      | .ok (true, visited) => .ok (true, visited)
      | .ok (false, visited) => isOrHasAncestorAux repo target fuel (.anyRev ps) visited

/-- The multi-parent scan of the collector (lines 72–90): filter the parents,
scanned in reversed (last-listed-first) order, through `is_or_has_ancestor`
with ONE shared `visited` set, collecting the matching parents in scan order.
Each parent is loaded by the iterator before the predicate runs. -/
def scanMatches (repo : Repo) (target : Oid) (fuel : Nat) :
    List Oid → List Oid → Except Panic (List Oid × List Oid)
  | [], visited => .ok ([], visited)
  | p :: ps, visited =>
    match lookupCommit repo p with
    | none => .error (.commitNotFound p)
    | some _ =>
      match isOrHasAncestorAux repo target fuel (.one p) visited with
      | .error e => .error e
      | .ok (b, visited) =>
        match scanMatches repo target fuel ps visited with
        | .error e => .error e
        | .ok (ms, visited) => .ok (if b then p :: ms else ms, visited)

/-- One walk of the collector's inner `loop` (lines 56–103) for the branch
pair `(current, parent)`: walk back from `cur`, stopping (exclusive) at
`target`; single-parent commits follow their parent, multi-parent commits go
through the shared-memo scan, where exactly one collected match is asserted
(`ambiguousParents` is the `assert_eq!(matching_parents.len(), 1, ...)`
panic). Items are pushed in walk order. -/
def walkPair (repo : Repo) (branchIdx : Nat) (target : Oid) :
    Nat → Oid → List Item → Except Panic (List Item)
  | 0, _, _ => .error .walkFuel
  | fuel + 1, cur, acc =>
    if cur = target then .ok acc
    else
      match lookupCommit repo cur with
      | none => .error (.commitNotFound cur)
      | some d =>
        if h : d.parents.length = 1 then
          match lookupCommit repo (d.parents.head (by intro hn; rw [hn] at h; simp at h)) with
          | none => .error (.commitNotFound (d.parents.headI))
          | some _ =>
            walkPair repo branchIdx target fuel
              (d.parents.head (by intro hn; rw [hn] at h; simp at h))
              (acc ++ [⟨cur, branchIdx⟩])
        else
          match scanMatches repo target (repo.commits.length + 1) d.parents.reverse [] with
          | .error e => .error e
          | .ok (ms, _) =>
            match ms with
            | [m] => walkPair repo branchIdx target fuel m (acc ++ [⟨cur, branchIdx⟩])
            | _ => .error (.ambiguousParents cur ms.length)

/-- The Commit Chain Collector (lines 45–104): for each adjacent branch pair
`(branches[i], branches[i+1])`, peel both tips and walk from the junior tip
down to (exclusive) the senior tip, concatenating the per-pair item lists. -/
def collectPairs (repo : Repo) : Nat → List Branch → Except Panic (List Item)
  | _, [] => .ok []
  | _, [_] => .ok []
  | i, cur :: par :: rest =>
    match lookupCommit repo cur.tip with
    | none => .error (.commitNotFound cur.tip)
    | some _ =>
      match lookupCommit repo par.tip with
      | none => .error (.commitNotFound par.tip)
      | some _ =>
        match walkPair repo i par.tip (repo.commits.length + 1) cur.tip [] with
        | .error e => .error e
        | .ok items =>
          match collectPairs repo (i + 1) (par :: rest) with
          | .error e => .error e
          | .ok more => .ok (items ++ more)

/-- Entry point of the collector. -/
def collectCommits (repo : Repo) (branches : List Branch) : Except Panic (List Item) :=
  collectPairs repo 0 branches

/-- The Edit Protocol (line 106): the external actor may rewrite each item's
target branch index and nothing else. It is modelled as a function from the
item position and old index to the new index. -/
def applyEditAux (f : Nat → Nat → Nat) : Nat → List Item → List Item
  | _, [] => []
  | i, it :: rest => ⟨it.commitId, f i it.branchIndex⟩ :: applyEditAux f (i + 1) rest

/-- Apply an edit to the collected items. -/
def applyEdit (f : Nat → Nat → Nat) (items : List Item) : List Item :=
  applyEditAux f 0 items

/-- The fork table: commit id to discovering branch index. -/
abbrev ForkTable := List (Oid × Nat)

/-- The fork-table update of `visit` (lines 169–173): insert the new index,
then if the previously recorded index was larger, put the old value back.
The net effect records the maximum. -/
def recordFork (forks : ForkTable) (id : Oid) (branchIndex : Nat) : ForkTable :=
  let old := alookup forks id
  let forks1 := ainsert forks id branchIndex
  match old with
  | some oldValue => if oldValue > branchIndex then ainsert forks1 id oldValue else forks1
  | none => forks1

/-- Task argument for the fueled fork-detection DFS `visit`: one commit, or
the sequential (non-short-circuiting) fold over a parent list. -/
inductive VTask
  | one (c : Oid)
  | seq (ps : List Oid)

/-- `visit` from fork detection (lines 147–176): an unvisited commit recurses
into every parent (accumulating `found_fork |=`, no short-circuit) and is
marked visited only if no fork was found below it; a visited commit is a fork
and its table entry is updated through `recordFork`. Parents are loaded by
the iterator before each recursive call. -/
def visitAux (repo : Repo) (branchIndex : Nat) :
    Nat → VTask → List Oid × ForkTable → Except Panic (Bool × List Oid × ForkTable)
  | 0, _, _ => .error .forkFuel
  | fuel + 1, .one c, (visited, forks) =>
    if visited.contains c then
      .ok (true, visited, recordFork forks c branchIndex)
    else
      match lookupCommit repo c with
      | none => .error (.commitNotFound c)
      | some d =>
        match visitAux repo branchIndex fuel (.seq d.parents) (visited, forks) with
        | .error e => .error e
        | .ok (found, visited, forks) =>
          if found then .ok (true, visited, forks)
          else .ok (false, c :: visited, forks)
  | _ + 1, .seq [], (visited, forks) => .ok (false, visited, forks)
  | fuel + 1, .seq (p :: ps), (visited, forks) =>
    match lookupCommit repo p with
    | none => .error (.commitNotFound p)
    | some _ =>
      match visitAux repo branchIndex fuel (.one p) (visited, forks) with
      | .error e => .error e
      | .ok (f1, visited, forks) =>
        match visitAux repo branchIndex fuel (.seq ps) (visited, forks) with
        | .error e => .error e
        | .ok (f2, visited, forks) => .ok (f1 || f2, visited, forks)

/-- One iteration of the fork-detection outer loop (lines 120–178) for the
pair `(current, expected-parent-or-none)`: mark the current item's commit
visited, then walk every parent; the parent equal to the expected parent id
is loaded but filtered out, every other parent is DFS-visited. -/
def forkStepParents (repo : Repo) (branchIndex : Nat) (par : Option Item) :
    List Oid → List Oid × ForkTable → Except Panic (List Oid × ForkTable)
  | [], s => .ok s
  | p :: ps, s =>
    match lookupCommit repo p with
    | none => .error (.commitNotFound p)
    | some _ =>
      let isSide : Bool := match par with
        | some parent => p != parent.commitId
        | none => true
      if isSide then
        match visitAux repo branchIndex (repo.commits.length + 1) (.one p) s with
        | .error e => .error e
        | .ok (_, s1, s2) => forkStepParents repo branchIndex par ps (s1, s2)
      else forkStepParents repo branchIndex par ps s

/-- One outer-loop step of fork detection. -/
def forkStep (repo : Repo) (cp : Item × Option Item) (s : List Oid × ForkTable) :
    Except Panic (List Oid × ForkTable) :=
  let visited := cp.1.commitId :: s.1
  match lookupCommit repo cp.1.commitId with
  | none => .error (.commitNotFound cp.1.commitId)
  | some d => forkStepParents repo cp.1.branchIndex cp.2 d.parents (visited, s.2)

/-- The `(current, parent)` pairs fork detection iterates over:
`commits.iter().map(Some).chain([None]).windows(2)`, i.e. each item paired
with the next-older item, the oldest paired with `None`. -/
def forkPairsList : List Item → List (Item × Option Item)
  | [] => []
  | [it] => [(it, none)]
  | it :: next :: rest => (it, some next) :: forkPairsList (next :: rest)

/-- Fold of `forkStep` over a pair list. -/
def forkFold (repo : Repo) : List (Item × Option Item) → List Oid × ForkTable →
    Except Panic (List Oid × ForkTable)
  | [], s => .ok s
  | cp :: rest, s =>
    match forkStep repo cp s with
    | .error e => .error e
    | .ok s1 => forkFold repo rest s1

/-- The Fork Detector (lines 108–180): iterate the windowed pairs in reverse
(oldest first) over fresh `visited`/`forks` state and return the fork table. -/
def forkPhase (repo : Repo) (items : List Item) : Except Panic ForkTable :=
  match forkFold repo (forkPairsList items).reverse ([], []) with
  | .error e => .error e
  | .ok (_, forks) => .ok forks

/-- Backup branch name for try `i` (lines 184–191):
`"git-backport-backup/" + name`, with `"-" + i` appended on retries. -/
def backupName (base : String) (i : Nat) : String :=
  if i = 0 then "git-backport-backup/" ++ base
  else "git-backport-backup/" ++ base ++ "-" ++ toString i

/-- Find the first free backup name (`while repository.branch(...).is_err()`
with `force = false`, lines 186–201). The Rust loop is unbounded; since a
finite ref table always frees a candidate within `refs.length + 1` tries this
bounded search is equivalent, with `none` as the (unreachable) exhaustion. -/
def firstFreeBackup (refs : List (String × Oid)) (base : String) : Nat → Nat → Option String
  | 0, _ => none
  | tries + 1, i =>
    match rlookup refs (backupName base i) with
    | none => some (backupName base i)
    | some _ => firstFreeBackup refs base tries (i + 1)

/-- Back up one branch (lines 183–202): peel its tip (panics on a missing
object), find a free backup name and create the new ref, never overwriting. -/
def backupOne (repo : Repo) (b : Branch) : Except Panic Repo :=
  match lookupCommit repo b.tip with
  | none => .error (.commitNotFound b.tip)
  | some _ =>
    match firstFreeBackup repo.refs b.name (repo.refs.length + 1) 0 with
    | none => .error .backupExhausted
    | some nm => .ok { repo with refs := (nm, b.tip) :: repo.refs }

/-- The Backup step (lines 182–203): back up every input branch in order.
Reports the partially extended repo on a mid-way panic. -/
def backupPhase (repo : Repo) : List Branch → Except (Panic × Repo) Repo
  | [] => .ok repo
  | b :: bs =>
    match backupOne repo b with
    | .error e => .error (e, repo)
    | .ok repo1 => backupPhase repo1 bs

/-- The mutable state of the History Rewrite Engine (lines 205–209): the
object store, per-branch rewritten heads, forward map, inverse map,
per-branch overlays and per-branch dirty flags. Maps hold commit ids (the
Rust maps hold `Commit` values, which are identified by id). -/
structure RwState where
  repo : Repo
  heads : List (Option Oid)
  map : List (Oid × Oid)
  inverse : List (Oid × Oid)
  overlays : List (List (Oid × Oid))
  dirty : List Bool
deriving DecidableEq, Repr

/-- Engine context: the tree oracle, the input branches and the default run
signature (`repository.signature()`). -/
structure Ctx where
  store : Store
  branches : List Branch
  sig : Nat

/-- Task argument for the fueled `map_commit` recursion: one commit, or the
map over a parent list. -/
inductive MTask
  | one (c : Oid)
  | many (cs : List Oid)

/-- `map_commit` from the source (lines 357–382): a memoized parent already
in the forward map returns its image; otherwise all parents are resolved
recursively and, if every one came back unchanged, the commit is registered
as unchanged in both maps and returned; a changed parent hits the `todo!()`
hard stop. Each commit is loaded before use (the caller's `parents()`
iterator panics on a missing object). -/
def mapCommitAux (repo : Repo) :
    Nat → MTask → List (Oid × Oid) × List (Oid × Oid) →
    Except Panic (List Oid × (List (Oid × Oid) × List (Oid × Oid)))
  | 0, _, _ => .error .mapCommitFuel
  | fuel + 1, .one c, (m, inv) =>
    match lookupCommit repo c with
    | none => .error (.commitNotFound c)
    | some d =>
      match alookup m c with
      | some v => .ok ([v], (m, inv))
      | none =>
        match mapCommitAux repo fuel (.many d.parents) (m, inv) with
        | .error e => .error e
        | .ok (vs, (m1, inv1)) =>
          if d.parents = vs then .ok ([c], (ainsert m1 c c, ainsert inv1 c c))
          else .error (.todoUnmappedParent c)
  | _ + 1, .many [], s => .ok ([], s)
  | fuel + 1, .many (p :: ps), s =>
    match mapCommitAux repo fuel (.one p) s with
    | .error e => .error e
    | .ok (vs, s1) =>
      match mapCommitAux repo fuel (.many ps) s1 with
      | .error e => .error e
      | .ok (ws, s2) => .ok (vs ++ ws, s2)

/-- Single-commit wrapper of `map_commit`. -/
def mapCommit (repo : Repo) (fuel : Nat) (c : Oid) (s : List (Oid × Oid) × List (Oid × Oid)) :
    Except Panic (Oid × (List (Oid × Oid) × List (Oid × Oid))) :=
  match mapCommitAux repo fuel (.one c) s with
  | .error e => .error e
  | .ok (vs, s1) => .ok (vs.headI, s1)

/-- The bookkeeping tail of `catch_up_branch` (lines 289–302): record the
overlay and inverse-map entries for the new head as fresh keys, clear the
dirty flag and return the original id the head now represents. -/
def catchUpRecord (b : Nat) (orig newHead : Oid) (st : RwState) :
    Except (Panic × Repo) (Oid × RwState) :=
  match lget st.overlays b with
  | none => .error (.overlaysIndexOOB b, st.repo)
  | some ov =>
    match alookup ov orig with
    | some _ => .error (.duplicateOverlayKey orig, st.repo)
    | none =>
      match alookup st.inverse newHead with
      | some _ => .error (.duplicateInverseCatchUp newHead, st.repo)
      | none =>
        match lookupCommit st.repo orig with
        | none => .error (.commitNotFound orig, st.repo)
        | some _ =>
          .ok (orig, { st with overlays := lset st.overlays b (ainsert ov orig newHead),
                               inverse := ainsert st.inverse newHead orig,
                               dirty := lset st.dirty b false })

/-- `catch_up_branch` (lines 228–303). Base case (most-senior branch or not
dirty): read the head and translate it through the inverse map, panicking on
a missing head or missing map entry. Otherwise catch up the senior neighbour
first, then either fast-forward an unset head or synthesize a merge commit
with parents `[head, heads[b+1]]` via the tree oracle, then register the
overlay and inverse entries (panicking on duplicate keys) and clear the
dirty flag. Errors carry the store state at the panic. -/
def catchUp (ctx : Ctx) : Nat → Nat → RwState → Except (Panic × Repo) (Oid × RwState)
  | 0, _, st => .error (.catchUpFuel, st.repo)
  | fuel + 1, b, st =>
    if b = ctx.branches.length - 1 then
      match lget st.heads b with
      | none => .error (.headsIndexOOB b, st.repo)
      | some none => .error (.missingHeadCatchUp b, st.repo)
      | some (some h) =>
        match alookup st.inverse h with
        | none => .error (.inverseMapMissing h, st.repo)
        | some o => .ok (o, st)
    else
      match lget st.dirty b with
      | none => .error (.dirtyIndexOOB b, st.repo)
      | some false =>
        match lget st.heads b with
        | none => .error (.headsIndexOOB b, st.repo)
        | some none => .error (.missingHeadCatchUp b, st.repo)
        | some (some h) =>
          match alookup st.inverse h with
          | none => .error (.inverseMapMissing h, st.repo)
          | some o => .ok (o, st)
      | some true =>
        match catchUp ctx fuel (b + 1) st with
        | .error e => .error e
        | .ok (orig, st1) =>
          match lget st1.heads b with
          | none => .error (.headsIndexOOB b, st1.repo)
          | some cur =>
            match lget st1.heads (b + 1) with
            | none => .error (.headsIndexOOB (b + 1), st1.repo)
            | some none => .error (.missingHeadCatchUp (b + 1), st1.repo)
            | some (some h1) =>
              match cur with
              | none =>
                -- fast-forward: wholesale inheritance, no new commit
                catchUpRecord b orig h1 { st1 with heads := lset st1.heads b (some h1) }
              | some h =>
                match ctx.store.mergeTrees h h1 with
                | none => .error (.mergeConflict, st1.repo)
                | some t =>
                  match lget ctx.branches (b + 1), lget ctx.branches b with
                  | none, _ => .error (.branchesIndexOOB (b + 1), st1.repo)
                  | _, none => .error (.branchesIndexOOB b, st1.repo)
                  | some senior, some junior =>
                    let cr := createCommit st1.repo
                      { parents := [h, h1], author := ctx.sig, committer := ctx.sig,
                        message := .mergeOf senior.name junior.name, tree := t }
                    catchUpRecord b orig cr.1
                      { st1 with repo := cr.2, heads := lset st1.heads b (some cr.1) }

/-- Find the mainline parent index (lines 320–325): the position of the
next-older item's original id among the commit's original parents; the
iterator loads each scanned parent, and exhausting the list is the
`.unwrap()` panic. -/
def findMainline (repo : Repo) (target : Oid) : List Oid → Nat → Except Panic Nat
  | [], _ => .error (.mainlineNotFound target)
  | p :: ps, i =>
    match lookupCommit repo p with
    | none => .error (.commitNotFound p)
    | some _ => if p = target then .ok i else findMainline repo target ps (i + 1)

/-- Build the cherry-pick parent list (lines 342–355): the matched original
parent becomes the branch's pre-cherry-pick head, every other parent is
resolved through `map_commit`. Parents are loaded in order by the iterator. -/
def cherryParents (repo : Repo) (target onto : Oid) :
    List Oid → List (Oid × Oid) × List (Oid × Oid) →
    Except Panic (List Oid × (List (Oid × Oid) × List (Oid × Oid)))
  | [], s => .ok ([], s)
  | p :: ps, s =>
    match lookupCommit repo p with
    | none => .error (.commitNotFound p)
    | some _ =>
      if p = target then
        match cherryParents repo target onto ps s with
        | .error e => .error e
        | .ok (vs, s1) => .ok (onto :: vs, s1)
      else
        match mapCommit repo (repo.commits.length + 1) p s with
        | .error e => .error e
        | .ok (v, s1) =>
          match cherryParents repo target onto ps s1 with
          | .error e => .error e
          | .ok (vs, s2) => .ok (v :: vs, s2)

/-- The rewrite state after a successful cherry-pick of item `it` producing
the new commit `nd` (lines 384–411): the created commit becomes the branch
head, the forward/inverse maps gain the `original -> new` pair, and every
strictly more junior branch is marked dirty. -/
def cherryApply (it : Item) (st1 : RwState) (m1 inv1 : List (Oid × Oid))
    (nd : CommitData) : RwState :=
  { repo := (createCommit st1.repo nd).2,
    heads := lset st1.heads it.branchIndex (some (createCommit st1.repo nd).1),
    map := ainsert m1 it.commitId (createCommit st1.repo nd).1,
    inverse := ainsert inv1 (createCommit st1.repo nd).1 it.commitId,
    overlays := st1.overlays,
    dirty := markBelow it.branchIndex st1.dirty }

/-- The bookkeeping tail of a main-pass step (lines 384–423): create the new
commit, register the forward/inverse entries as fresh keys (panicking on a
duplicate), advance the head, mark juniors dirty and, if the item's original
id is a fork-table key, immediately catch up the recorded branch. -/
def cherryRecord (ctx : Ctx) (forks : ForkTable) (it : Item) (st1 : RwState)
    (m1 inv1 : List (Oid × Oid)) (nd : CommitData) :
    Except (Panic × Repo) RwState :=
  match alookup m1 it.commitId with
  | some _ => .error (.duplicateMapKey it.commitId, (createCommit st1.repo nd).2)
  | none =>
    match alookup inv1 (createCommit st1.repo nd).1 with
    | some _ =>
      .error (.duplicateInverseCherry (createCommit st1.repo nd).1, (createCommit st1.repo nd).2)
    | none =>
      if it.branchIndex > st1.dirty.length then
        .error (.dirtySliceOOB it.branchIndex, (createCommit st1.repo nd).2)
      else
        match alookup forks it.commitId with
        | none => .ok (cherryApply it st1 m1 inv1 nd)
        | some fi =>
          match catchUp ctx (ctx.branches.length + 1) fi (cherryApply it st1 m1 inv1 nd) with
          | .error e => .error e
          | .ok (_, st3) => .ok st3

/-- One step of the main rewrite pass (lines 305–424) for the window
`(item, next-older item)`: catch up the item's target branch, find the
mainline parent, cherry-pick the original commit onto the branch head via the
tree oracle, resolve the parent list, then create and register the new commit
(with the original author and message and the run committer) through
`cherryRecord`. -/
def processItem (ctx : Ctx) (forks : ForkTable) (pr : Item × Item) (st : RwState) :
    Except (Panic × Repo) RwState :=
  match catchUp ctx (ctx.branches.length + 1) pr.1.branchIndex st with
  | .error e => .error e
  | .ok (_, st1) =>
    match lookupCommit st1.repo pr.1.commitId with
    | none => .error (.commitNotFound pr.1.commitId, st1.repo)
    | some d =>
      match findMainline st1.repo pr.2.commitId d.parents 0 with
      | .error e => .error (e, st1.repo)
      | .ok mainline =>
        match lget st1.heads pr.1.branchIndex with
        | none => .error (.headsIndexOOB pr.1.branchIndex, st1.repo)
        | some none => .error (.missingHeadCherry pr.1.branchIndex, st1.repo)
        | some (some onto) =>
          match ctx.store.cherryTree pr.1.commitId onto mainline with
          | none => .error (.cherrypickConflict pr.1.commitId, st1.repo)
          | some t =>
            match cherryParents st1.repo pr.2.commitId onto d.parents (st1.map, st1.inverse) with
            | .error e => .error (e, st1.repo)
            | .ok (ps, (m1, inv1)) =>
              cherryRecord ctx forks pr.1 st1 m1 inv1
                { parents := ps, author := d.author, committer := ctx.sig,
                  message := d.message, tree := t }

/-- Fold of `processItem` over the reversed item windows (oldest first). -/
def runItems (ctx : Ctx) (forks : ForkTable) :
    List (Item × Item) → RwState → Except (Panic × Repo) RwState
  | [], st => .ok st
  | pr :: rest, st =>
    match processItem ctx forks pr st with
    | .error e => .error e
    | .ok st1 => runItems ctx forks rest st1

/-- The state sequence of the main rewrite pass: the state before each item
step plus the final state, cut short at a panic. -/
def itemTrace (ctx : Ctx) (forks : ForkTable) :
    List (Item × Item) → RwState → List RwState
  | [], st => [st]
  | pr :: rest, st =>
    st :: (match processItem ctx forks pr st with
           | .error _ => []
           | .ok st1 => itemTrace ctx forks rest st1)

/-- Initialization of the rewrite (lines 213–226): the oldest collected item
is seeded into both maps as unchanged, its branch head is set to it, and
every strictly more junior branch is marked dirty. -/
def seedStep (items : List Item) (st : RwState) : Except Panic RwState :=
  match items.getLast? with
  | none => .ok st
  | some it =>
    let m := ainsert st.map it.commitId it.commitId
    let inv := ainsert st.inverse it.commitId it.commitId
    if it.branchIndex < st.heads.length then
      if it.branchIndex ≤ st.dirty.length then
        .ok { st with map := m, inverse := inv,
                      heads := lset st.heads it.branchIndex (some it.commitId),
                      dirty := markBelow it.branchIndex st.dirty }
      else .error (.dirtySliceOOB it.branchIndex)
    else .error (.headsIndexOOB it.branchIndex)

/-- The Branch Ref Committer (lines 436–441): `branches.iter().zip(heads)` in
index order, force-updating each branch ref to its head; an absent head is
the `head.unwrap()` panic, aborting the loop with earlier refs already
updated. -/
def setBranches (repo : Repo) : List Branch → List (Option Oid) → Nat →
    Except (Panic × Repo) Repo
  | [], _, _ => .ok repo
  | _ :: _, [], _ => .ok repo
  | _ :: _, none :: _, i => .error (.missingHeadRefUpdate i, repo)
  | b :: bs, some h :: hs, i =>
    setBranches { repo with refs := (b.name, h) :: repo.refs } bs hs (i + 1)

/-- The full input of `backport`: `BackportArgs` (repository, backup flag,
branches, edit closure) plus the tree oracle and the default signature the
repository provides. -/
structure BackportArgs where
  repo : Repo
  store : Store
  backup : Bool
  branches : List Branch
  edit : Nat → Nat → Nat
  sig : Nat

/-- The initial rewrite state (lines 205–209). -/
def initState (repo : Repo) (n : Nat) : RwState :=
  { repo := repo, heads := List.replicate n none, map := [], inverse := [],
    overlays := List.replicate n [], dirty := List.replicate n false }

/-- The windowed item pairs of the main pass, reversed to oldest-first
(`commits.windows(2).rev()`). -/
def itemPairs (items : List Item) : List (Item × Item) :=
  (items.zip items.tail).reverse

/-- The engine context of a run. -/
def mkCtx (a : BackportArgs) : Ctx :=
  { store := a.store, branches := a.branches, sig := a.sig }

/-- The pipeline of `backport` after collection and edit (lines 108–444):
detect forks, optionally create backups, seed the rewrite state, run the main
pass, catch up branch 0 and finally commit the branch refs. -/
def backportRest (a : BackportArgs) (items : List Item) :
    Except (Panic × Repo) (Except Error Unit × Repo) :=
  match forkPhase a.repo items with
  | .error p => .error (p, a.repo)
  | .ok forks =>
    match (if a.backup then backupPhase a.repo a.branches else .ok a.repo) with
    | .error e => .error e
    | .ok repo1 =>
      match seedStep items (initState repo1 a.branches.length) with
      | .error p => .error (p, repo1)
      | .ok st1 =>
        match runItems (mkCtx a) forks (itemPairs items) st1 with
        | .error e => .error e
        | .ok st2 =>
          match catchUp (mkCtx a) (a.branches.length + 1) 0 st2 with
          | .error e => .error e
          | .ok (_, st3) =>
            match setBranches st3.repo a.branches st3.heads 0 with
            | .error e => .error e
            | .ok repoF => .ok (.ok (), repoF)

/-- `backport` (lines 37–444): assert a non-empty branch list, collect the
commit chain, apply the edit and run the rest of the pipeline. A success is
`Ok(())`; every panic is an error carrying the store state at the abort. -/
def backport (a : BackportArgs) : Except (Panic × Repo) (Except Error Unit × Repo) :=
  if a.branches = [] then .error (.emptyBranches, a.repo)
  else
    match collectCommits a.repo a.branches with
    | .error p => .error (p, a.repo)
    | .ok items0 => backportRest a (applyEdit a.edit items0)

/-- The run's rewrite-state sequence: the state at initialization, after
seeding, before every main-pass item and after the final catch-up, cut short
at the first panic. Mirrors `backport` phase for phase. -/
def backportTrace (a : BackportArgs) : List RwState :=
  if a.branches = [] then []
  else
    match collectCommits a.repo a.branches with
    | .error _ => []
    | .ok items0 =>
      match forkPhase a.repo (applyEdit a.edit items0) with
      | .error _ => []
      | .ok forks =>
        match (if a.backup then backupPhase a.repo a.branches else .ok a.repo) with
        | .error _ => []
        | .ok repo1 =>
          match seedStep (applyEdit a.edit items0) (initState repo1 a.branches.length) with
          | .error _ => [initState repo1 a.branches.length]
          | .ok st1 =>
            initState repo1 a.branches.length ::
              itemTrace (mkCtx a) forks (itemPairs (applyEdit a.edit items0)) st1 ++
              (match runItems (mkCtx a) forks (itemPairs (applyEdit a.edit items0)) st1 with
               | .error _ => []
               | .ok st2 =>
                 match catchUp (mkCtx a) (a.branches.length + 1) 0 st2 with
                 | .error _ => []
                 | .ok (_, st3) => [st3])

/-- The panic of a run, if it panicked. -/
def panicOf (x : Except (Panic × Repo) (Except Error Unit × Repo)) : Option Panic :=
  match x with
  | .error (p, _) => some p
  | .ok _ => none

/-- The panic a failed run carries (junk value on a successful run; used to
state witnesses). -/
def errPanicOf (x : Except (Panic × Repo) (Except Error Unit × Repo)) : Panic :=
  match x with
  | .error (p, _) => p
  | .ok _ => .emptyBranches

/-- The store state a run ends in (at the abort for a failed run). -/
def errRepoOf (x : Except (Panic × Repo) (Except Error Unit × Repo)) : Repo :=
  match x with
  | .error (_, r) => r
  | .ok (_, r) => r

/-- Whether a panic is the Branch Ref Committer's missing-head panic. -/
def isRefUpdatePanic : Panic → Bool
  | .missingHeadRefUpdate _ => true
  | _ => false

/-- The panic of a Ref Committer run, if it panicked. -/
def sbPanicOf (x : Except (Panic × Repo) Repo) : Option Panic :=
  match x with
  | .error (p, _) => some p
  | .ok _ => none

/-- The store state a `catch_up_branch` call ends in. -/
def cuRepo (x : Except (Panic × Repo) (Oid × RwState)) : Repo :=
  match x with
  | .error (_, r) => r
  | .ok (_, st) => st.repo

/-- The store state a rewrite step ends in. -/
def prRepo (x : Except (Panic × Repo) RwState) : Repo :=
  match x with
  | .error (_, r) => r
  | .ok st => st.repo

/-- The store state the backup step ends in. -/
def bpRepo (x : Except (Panic × Repo) Repo) : Repo :=
  match x with
  | .error (_, r) => r
  | .ok r => r

/-- Refinement comparison definition following the spec's words: "the number
of parents whose ancestry reaches the next-senior branch's tip", counting
each parent with an independent ancestry search (fresh memo per parent),
which is the reading under which "exactly one match is required". -/
def specIndependentMatchCount (repo : Repo) (ps : List Oid) (target : Oid) : Nat :=
  (ps.filter (fun p =>
    match isOrHasAncestorAux repo target (repo.commits.length + 1) (.one p) [] with
    | .ok (b, _) => b
    | .error _ => false)).length

/-- An id resolvable in a store (used to mark ids of the original repo). -/
def OrigId (r : Repo) (c : Oid) : Prop :=
  (lookupCommit r c).isSome = true

/-- Well-formed input store: every entry's key is below the fresh-id counter
and every listed parent resolves (a real content-addressed git odb satisfies
both). -/
def WFRepo (r : Repo) : Prop :=
  ∀ kd ∈ r.commits, kd.1 < r.nextOid ∧ ∀ p ∈ kd.2.parents, (lookupCommit r p).isSome = true

/-- `r` extends the input store `r0`: the counter only grew, all keys stay
below it, and ids from the original range still resolve to their original
payloads. -/
structure RepoExtends (r0 r : Repo) : Prop where
  next_le : r0.nextOid ≤ r.nextOid
  keys_lt : ∀ kd ∈ r.commits, kd.1 < r.nextOid
  orig_lookup : ∀ c, c < r0.nextOid → lookupCommit r c = lookupCommit r0 c

/-- The forward map and the inverse map are exact mutual inverses: the
forward map sends `x` to `y` precisely when the inverse map sends `y` back to
`x`. -/
def MutualInv (m inv : List (Oid × Oid)) : Prop :=
  ∀ x y, alookup m x = some y ↔ alookup inv y = some x

/-- Every non-identity image in the forward map is a created (fresh-range)
id. -/
def MapOrig (r0 : Repo) (m : List (Oid × Oid)) : Prop :=
  ∀ a b, alookup m a = some b → a ≠ b → r0.nextOid ≤ b

/-- Structural run invariant on the rewrite state: the per-branch tables have
branch-count length, at most one branch ever holds a head, and every dirty
branch is strictly junior to a branch holding a head. -/
structure InvB (n : Nat) (st : RwState) : Prop where
  hlen : st.heads.length = n
  dlen : st.dirty.length = n
  atMostOne : ∀ b b' h h', lget st.heads b = some (some h) →
    lget st.heads b' = some (some h') → b = b'
  dirtyImp : ∀ b, lget st.dirty b = some true →
    ∃ b' h, b < b' ∧ lget st.heads b' = some (some h)

/-- Reflexive ancestry in a store: `Reaches repo a b` holds when `b` is `a`
itself or an ancestor of `a` through stored parent links. -/
inductive Reaches (repo : Repo) : Oid → Oid → Prop
  | refl (a : Oid) : Reaches repo a a
  | step {a p b : Oid} {d : CommitData} (h1 : lookupCommit repo a = some d)
      (h2 : p ∈ d.parents) (h3 : Reaches repo p b) : Reaches repo a b

/-- A commit id is unchanged under the forward map: mapped to nothing, or to
itself. -/
def Unchanged (m : List (Oid × Oid)) (a : Oid) : Prop :=
  ∀ v, alookup m a = some v → v = a

/-- Identity entries of the forward map are ancestry-closed: whatever is
mapped to itself has all its reflexive ancestors unchanged. The engine only
registers identity entries through `map_commit` after checking exactly this. -/
def IdentityClosed (repo : Repo) (m : List (Oid × Oid)) : Prop :=
  ∀ a, alookup m a = some a → ∀ b, Reaches repo a b → Unchanged m b

/-- The commit ids a `map_commit` task mentions. -/
def mtaskIds : MTask → List Oid
  | .one c => [c]
  | .many cs => cs

/-- The forward map grew only by identity entries: every entry of `m'` is an
entry of `m` or maps an id to itself. -/
def IdExtends (m m' : List (Oid × Oid)) : Prop :=
  ∀ x y, alookup m' x = some y → alookup m x = some y ∨ x = y

/-- Tree oracle for the concrete runs below: merges and cherry-picks always
succeed, producing fixed tree ids. -/
def store1 : Store := ⟨fun _ _ => some 99, fun _ _ _ => some 98⟩

/-- Two-commit store: root `0`, child `1`, with refs `main -> 1`,
`stable -> 0`. -/
def repoTwo : Repo :=
  { commits := [(1, ⟨[0], 0, 0, .text "a", 1⟩), (0, ⟨[], 0, 0, .text "r", 0⟩)],
    refs := [("main", 1), ("stable", 0)], nextOid := 2 }

/-- Run input: two branches `main -> 1`, `stable -> 0`, no reassignment, no
backup. -/
def c1args : BackportArgs :=
  { repo := repoTwo, store := store1, backup := false,
    branches := [⟨"main", 1⟩, ⟨"stable", 0⟩], edit := fun _ o => o, sig := 7 }

/-- Run input: same store, but the single collected commit is reassigned to
the most senior branch (index 1). -/
def c5args : BackportArgs :=
  { repo := repoTwo, store := store1, backup := false,
    branches := [⟨"main", 1⟩, ⟨"stable", 0⟩], edit := fun _ _ => 1, sig := 7 }

/-- One-commit store with a single ref. -/
def repoOne : Repo :=
  { commits := [(0, ⟨[], 0, 0, .text "r", 0⟩)], refs := [("main", 0)], nextOid := 1 }

/-- Run input with exactly one branch: passes the non-emptiness assertion and
collects nothing. -/
def c10args : BackportArgs :=
  { repo := repoOne, store := store1, backup := false,
    branches := [⟨"main", 0⟩], edit := fun _ o => o, sig := 7 }

/-- Store for the ambiguity scenario: merge commit `3` has parents `1` and
`2`, and each of them independently reaches the senior tip `0`. -/
def c2repo : Repo :=
  { commits := [(3, ⟨[1, 2], 0, 0, .text "m", 3⟩), (2, ⟨[0], 0, 0, .text "p1", 2⟩),
                (1, ⟨[0], 0, 0, .text "p0", 1⟩), (0, ⟨[], 0, 0, .text "r", 0⟩)],
    refs := [("feat", 3), ("base", 0)], nextOid := 4 }

/-- Branches for the ambiguity scenario. -/
def c2branches : List Branch := [⟨"feat", 3⟩, ⟨"base", 0⟩]

/-- Store for the fork scenario: shared ancestor `0` is reachable from item
`2` (a merge of `0` and `1`) and from item `3` via the side chain `4`. -/
def c4repo : Repo :=
  { commits := [(3, ⟨[2, 4], 0, 0, .text "a", 3⟩), (4, ⟨[0], 0, 0, .text "q", 4⟩),
                (2, ⟨[0, 1], 0, 0, .text "b", 2⟩), (1, ⟨[0], 0, 0, .text "p", 1⟩),
                (0, ⟨[], 0, 0, .text "s", 0⟩)],
    refs := [], nextOid := 5 }

/-- Items for the fork scenario: the junior item `3` on branch 0, the senior
item `2` on branch 1; both walks reach the shared ancestor `0`. -/
def c4items : List Item := [⟨3, 0⟩, ⟨2, 1⟩]

/-!  Theorems. -/

/-- C1, counterexample: the claim asserts every branch has a final head at
the Branch Ref Committer and that absence cannot occur after initialization.
On the two-branch no-reassignment input the run reaches the Ref Committer
with the senior branch's head absent and dies on its missing-head unwrap:
head presence is not guaranteed. -/
theorem c1_counterexample :
    panicOf (backport c1args) = some (.missingHeadRefUpdate 1) := by decide

/-- C2: the claim (and spec) demand the ambiguous-ancestor failure exactly
when the number of parents whose ancestry reaches the next-senior tip is not
one, in particular when two distinct parents both independently reach it. In
`c2repo` the merge commit `3` has two parents (`1`, `2`) that each
independently reach the senior tip `0` — the spec-reading count is 2 — yet
collection succeeds without any panic and silently picks the last-listed
parent `2`: the shared `visited` memo makes a second match impossible, so
`assert_eq!(matching_parents.len(), 1)` can only fire on zero matches. -/
theorem c2_shared_memo_no_ambiguity_panic :
    specIndependentMatchCount c2repo [1, 2] 0 = 2 ∧
      collectCommits c2repo c2branches = .ok [⟨3, 0⟩, ⟨2, 0⟩] := by
  constructor <;> decide

/-- C4: the fork table records the maximum of the discovering branch
indices. First conjunct: an id discovered first at branch index `j` and again
at `k` is recorded at `max j k` (the `recordFork` update of `visit`). Second
conjunct: in the concrete DAG where the shared ancestor `0` is reached from
two distinct collected positions (branch 1 first, then branch 0), the fork
table of the full detection pass records index `1`, the more senior. -/
theorem c4_fork_records_max :
    (∀ id j k : Nat, alookup (recordFork (recordFork [] id j) id k) id = some (max j k)) ∧
      Except.map (fun t => alookup t 0) (forkPhase c4repo c4items) = .ok (some 1) := by
  constructor
  · intro id j k
    by_cases h : j > k
    · simp [recordFork, alookup, ainsert, h, Nat.max_eq_left h.le]
    · simp [recordFork, alookup, ainsert, h, Nat.max_eq_right (Nat.le_of_not_lt h)]
  · decide

/-- C5: the claim (and spec) describe the fast-forward case of
`catch_up_branch` as completing with `heads[b] := heads[b+1]` and no new
commit. On the concrete run (`c5args`: one collected commit, reassigned to
the senior branch) the final catch-up of branch 0 takes exactly that
fast-forward path — the trace shows branch 0 dirty with no head — and then
dies on the inverse-map freshness assertion, because the key
`heads[b+1].id()` is necessarily already present in `inverse_map`: every
fast-forward panics instead of completing. -/
theorem c5_fast_forward_panics :
    (backportTrace c5args).map (fun st => (st.heads, st.dirty)) =
        [([none, none], [false, false]), ([none, some 1], [true, false])] ∧
      panicOf (backport c5args) = some (.duplicateInverseCatchUp 1) := by
  constructor <;> decide

/-- C9: the public `Error` enum has no variants, so `backport` can never
surface a typed `Err` value: every run either panics or returns `Ok(())`. -/
theorem c9_no_typed_error (a : BackportArgs) :
    match backport a with
    | .ok (r, _) => r = .ok ()
    | .error _ => True := by
  cases hb : backport a with
  | error e => trivial
  | ok v =>
    obtain ⟨r, repo⟩ := v
    cases r with
    | ok u => cases u; rfl
    | error e => cases e

/-- C10, counterexample: on the one-branch input (non-emptiness assertion
passes, collection is empty) the run indeed never seeds or builds a head and
dies on an absent head — but in the final `catch_up_branch(0)`, not at the
final ref-update as the claim states. -/
theorem c10_counterexample :
    panicOf (backport c10args) = some (.missingHeadCatchUp 0) ∧
      isRefUpdatePanic (errPanicOf (backport c10args)) = false := by
  constructor <;> decide

/-- A successful positional read is in bounds. -/
theorem lget_lt {α : Type} : ∀ (xs : List α) (n : Nat) (x : α), lget xs n = some x → n < xs.length
  | [], n, x, h => by cases h
  | _ :: _, 0, _, _ => Nat.succ_pos _
  | _ :: xs, n + 1, x, h => Nat.succ_lt_succ (lget_lt xs n x h)

/-- Reading a replicated list in bounds gives the replicated element. -/
theorem lget_replicate {α : Type} (a : α) : ∀ (n b : Nat), b < n →
    lget (List.replicate n a) b = some a
  | 0, _, h => absurd h (Nat.not_lt_zero _)
  | _ + 1, 0, _ => rfl
  | n + 1, b + 1, h => lget_replicate a n b (Nat.lt_of_succ_lt_succ h)

/-- Reading back an in-bounds positional write. -/
theorem lget_lset_eq {α : Type} : ∀ (xs : List α) (n : Nat) (v : α), n < xs.length →
    lget (lset xs n v) n = some v
  | [], _, _, h => absurd h (Nat.not_lt_zero _)
  | _ :: _, 0, _, _ => rfl
  | _ :: xs, n + 1, v, h => lget_lset_eq xs n v (Nat.lt_of_succ_lt_succ h)

/-- Positional writes do not affect other positions. -/
theorem lget_lset_ne {α : Type} : ∀ (xs : List α) (n m : Nat) (v : α), n ≠ m →
    lget (lset xs n v) m = lget xs m
  | [], _, _, _, _ => rfl
  | _ :: _, 0, 0, _, h => absurd rfl h
  | _ :: _, 0, _ + 1, _, _ => rfl
  | _ :: _, _ + 1, 0, _, _ => rfl
  | _ :: xs, n + 1, m + 1, v, h =>
    lget_lset_ne xs n m v (fun hnm => h (by rw [hnm]))

/-- Positional writes preserve length. -/
theorem lset_length {α : Type} : ∀ (xs : List α) (n : Nat) (v : α),
    (lset xs n v).length = xs.length
  | [], _, _ => rfl
  | _ :: xs, 0, _ => rfl
  | _ :: xs, n + 1, v => by simp [lset, lset_length xs n v]

/-- Marking a prefix dirty preserves length. -/
theorem markBelow_length : ∀ (k : Nat) (ds : List Bool), (markBelow k ds).length = ds.length
  | k, [] => by cases k <;> rfl
  | 0, _ :: _ => rfl
  | k + 1, _ :: ds => by simp [markBelow, markBelow_length k ds]

/-- Reading a prefix-marked list: positions below the mark read `true` (when
in bounds), other positions are untouched. -/
theorem lget_markBelow : ∀ (k : Nat) (ds : List Bool) (b : Nat),
    lget (markBelow k ds) b = if b < k then (lget ds b).map (fun _ => true) else lget ds b
  | k, [], b => by cases k <;> cases b <;> simp [markBelow, lget]
  | 0, d :: ds, b => by simp [markBelow]
  | k + 1, d :: ds, 0 => by simp [markBelow, lget]
  | k + 1, d :: ds, b + 1 => by
    simp only [markBelow, lget, lget_markBelow k ds b, Nat.succ_lt_succ_iff]

/-- The Ref Committer panics with the missing-head unwrap at the first index
whose head is absent (generalized over the running start index). -/
theorem setBranches_panic_first : ∀ (bs : List Branch) (repo : Repo)
    (hs : List (Option Oid)) (i j : Nat) (b : Branch),
    lget bs j = some b → lget hs j = some none →
    (∀ j', j' < j → ∃ h, lget hs j' = some (some h)) →
    sbPanicOf (setBranches repo bs hs i) = some (.missingHeadRefUpdate (i + j))
  | [], _, _, _, j, _, h1, _, _ => by cases h1
  | _ :: _, _, [], _, j, _, _, h2, _ => by cases h2
  | _ :: _, repo, none :: hs', i, 0, _, _, _, _ => by
    simp [setBranches, sbPanicOf]
  | _ :: _, repo, some h0 :: hs', i, 0, _, _, h2, _ => by cases h2
  | bh :: bs', repo, h0 :: hs', i, j + 1, b, h1, h2, h3 => by
    obtain ⟨hh, hv⟩ := h3 0 (Nat.succ_pos j)
    cases h0 with
    | none => cases hv
    | some h0v =>
      cases hv
      have ih := setBranches_panic_first bs'
        { repo with refs := (bh.name, hh) :: repo.refs } hs' (i + 1) j b h1 h2
        (fun j' hj' => h3 (j' + 1) (Nat.succ_lt_succ hj'))
      simpa [setBranches, Nat.add_assoc, Nat.add_comm 1 j] using ih

/-- The Ref Committer completes when every branch index holds a present
head. -/
theorem setBranches_total : ∀ (bs : List Branch) (repo : Repo)
    (hs : List (Option Oid)) (i : Nat),
    (∀ j, j < bs.length → ∃ h, lget hs j = some (some h)) →
    sbPanicOf (setBranches repo bs hs i) = none
  | [], _, _, _, _ => rfl
  | _ :: _, _, [], _, _ => rfl
  | _ :: bs', repo, h0 :: hs', i, h => by
    obtain ⟨hh, hv⟩ := h 0 (Nat.succ_pos _)
    cases h0 with
    | none => cases hv
    | some h0v =>
      cases hv
      exact setBranches_total bs' _ hs' (i + 1)
        (fun j hj => h (j + 1) (Nat.succ_lt_succ hj))

/-- C1, amended: the Branch Ref Committer force-updates branch refs in index
order and aborts with the fatal missing-head panic at the first branch whose
final head is absent; it completes precisely when every branch index holds a
head — head absence at this point is possible (see the counterexample), not
excluded by initialization. -/
theorem c1_ref_committer_amended :
    (∀ (repo : Repo) (bs : List Branch) (hs : List (Option Oid)) (j : Nat) (b : Branch),
        lget bs j = some b → lget hs j = some none →
        (∀ j', j' < j → ∃ h, lget hs j' = some (some h)) →
        sbPanicOf (setBranches repo bs hs 0) = some (.missingHeadRefUpdate j)) ∧
      ∀ (repo : Repo) (bs : List Branch) (hs : List (Option Oid)),
        (∀ j, j < bs.length → ∃ h, lget hs j = some (some h)) →
        sbPanicOf (setBranches repo bs hs 0) = none := by
  constructor
  · intro repo bs hs j b h1 h2 h3
    simpa using setBranches_panic_first bs repo hs 0 j b h1 h2 h3
  · intro repo bs hs h
    exact setBranches_total bs repo hs 0 h

/-- Witness for C1's amended theorem at the concrete run state of
`c1args`: branches `[main, stable]`, heads `[some 1, none]`. -/
theorem c1_ref_committer_witness :
    sbPanicOf (setBranches repoTwo [⟨"main", 1⟩, ⟨"stable", 0⟩] [some 1, none] 0) =
      some (.missingHeadRefUpdate 1) :=
  c1_ref_committer_amended.1 repoTwo [⟨"main", 1⟩, ⟨"stable", 0⟩] [some 1, none] 1
    ⟨"stable", 0⟩ rfl rfl
    (fun j' hj' => by
      have hj0 : j' = 0 := by omega
      subst hj0
      exact ⟨1, rfl⟩)

/-- C10, amended: with backup disabled, when collection returns no items on a
non-empty branch list, no head is ever seeded or built and `backport` dies on
the absent head in the final `catch_up_branch(0)` (before the ref-update
loop) instead of completing as a no-op. -/
theorem c10_empty_collection_amended (a : BackportArgs)
    (hne : a.branches ≠ []) (hc : collectCommits a.repo a.branches = .ok [])
    (hb : a.backup = false) :
    panicOf (backport a) = some (.missingHeadCatchUp 0) := by
  obtain ⟨b, bs, hab⟩ := List.exists_cons_of_ne_nil hne
  unfold backport backportRest mkCtx
  rw [if_neg hne, hc, hb, hab]
  cases bs with
  | nil => rfl
  | cons b' bs' => rfl

/-- Witness for C10's amended theorem at the one-branch input. -/
theorem c10_empty_collection_witness :
    panicOf (backport c10args) = some (.missingHeadCatchUp 0) :=
  c10_empty_collection_amended c10args (by decide) (by decide) rfl

/-- A name returned by the backup-name search is free in the ref table. -/
theorem firstFreeBackup_fresh : ∀ (refs : List (String × Oid)) (base : String)
    (tries i : Nat) (nm : String), firstFreeBackup refs base tries i = some nm →
    rlookup refs nm = none
  | _, _, 0, _, _, h => by cases h
  | refs, base, tries + 1, i, nm, h => by
    unfold firstFreeBackup at h
    cases hl : rlookup refs (backupName base i) with
    | none => rw [hl] at h; cases h; exact hl
    | some _ => rw [hl] at h; exact firstFreeBackup_fresh refs base tries (i + 1) nm h

/-- Consing a fresh ref preserves existing lookups. -/
theorem rlookup_cons_pres {nm n : String} {x v : Oid} {refs : List (String × Oid)}
    (hv : rlookup refs n = some v) (hf : rlookup refs nm = none) :
    rlookup ((nm, x) :: refs) n = some v := by
  have hne : nm ≠ n := by
    intro h
    rw [h, hv] at hf
    cases hf
  simp [rlookup, hne, hv]

/-- Backing up one branch preserves existing ref lookups. -/
theorem backupOne_pres {repo r1 : Repo} {b : Branch} (h : backupOne repo b = .ok r1) :
    ∀ n v, rlookup repo.refs n = some v → rlookup r1.refs n = some v := by
  intro n v hv
  unfold backupOne at h
  cases hl : lookupCommit repo b.tip with
  | none => rw [hl] at h; cases h
  | some _ =>
    rw [hl] at h
    cases hf : firstFreeBackup repo.refs b.name (repo.refs.length + 1) 0 with
    | none => rw [hf] at h; cases h
    | some nm =>
      rw [hf] at h
      cases h
      exact rlookup_cons_pres hv (firstFreeBackup_fresh _ _ _ _ _ hf)

/-- The Backup step preserves existing ref lookups, also on a mid-way
panic. -/
theorem backupPhase_pres : ∀ (bs : List Branch) (repo : Repo) (n : String) (v : Oid),
    rlookup repo.refs n = some v → rlookup (bpRepo (backupPhase repo bs)).refs n = some v
  | [], repo, n, v, hv => hv
  | b :: bs, repo, n, v, hv => by
    unfold backupPhase
    cases h1 : backupOne repo b with
    | error e => exact hv
    | ok r1 => exact backupPhase_pres bs r1 n v (backupOne_pres h1 n v hv)

/-- `catchUpRecord` never touches the object store. -/
theorem catchUpRecord_repo (b : Nat) (orig newHead : Oid) (st : RwState) :
    cuRepo (catchUpRecord b orig newHead st) = st.repo := by
  unfold catchUpRecord
  repeat' split
  all_goals rfl

/-- `catch_up_branch` never touches the branch-ref table, also on a panic. -/
theorem catchUp_refs (ctx : Ctx) (fuel : Nat) : ∀ (b : Nat) (st : RwState),
    (cuRepo (catchUp ctx fuel b st)).refs = st.repo.refs := by
  induction fuel with
  | zero => intro b st; rfl
  | succ fuel ih =>
    intro b st
    unfold catchUp
    split
    · repeat' split
      all_goals rfl
    · split
      · rfl
      · repeat' split
        all_goals rfl
      · split
        next e heq =>
          have hx := ih (b + 1) st
          rw [heq] at hx
          exact hx
        next orig st1 heq =>
          have hx := ih (b + 1) st
          rw [heq] at hx
          repeat' split
          all_goals first
            | exact hx
            | (rw [catchUpRecord_repo]; exact hx)

/-- Refs preservation of `catch_up_branch`, error form. -/
theorem catchUp_refs_error (ctx : Ctx) (fuel b : Nat) (st : RwState) (e : Panic × Repo)
    (heq : catchUp ctx fuel b st = .error e) : e.2.refs = st.repo.refs := by
  have hx := catchUp_refs ctx fuel b st
  rw [heq] at hx
  exact hx

/-- Refs preservation of `catch_up_branch`, success form. -/
theorem catchUp_refs_ok (ctx : Ctx) (fuel b : Nat) (st : RwState) (o : Oid) (st' : RwState)
    (heq : catchUp ctx fuel b st = .ok (o, st')) : st'.repo.refs = st.repo.refs := by
  have hx := catchUp_refs ctx fuel b st
  rw [heq] at hx
  exact hx

/-- The cherry-pick bookkeeping tail never touches the branch-ref table. -/
theorem cherryRecord_refs (ctx : Ctx) (forks : ForkTable) (it : Item) (st1 : RwState)
    (m1 inv1 : List (Oid × Oid)) (nd : CommitData) :
    (prRepo (cherryRecord ctx forks it st1 m1 inv1 nd)).refs = st1.repo.refs := by
  unfold cherryRecord
  repeat' split
  all_goals try rfl
  next heq => exact catchUp_refs_error ctx _ _ (cherryApply it st1 m1 inv1 nd) _ heq
  next st3 heq => exact catchUp_refs_ok ctx _ _ (cherryApply it st1 m1 inv1 nd) _ _ heq

/-- A main-pass step never touches the branch-ref table, also on a panic. -/
theorem processItem_refs (ctx : Ctx) (forks : ForkTable) (pr : Item × Item) (st : RwState) :
    (prRepo (processItem ctx forks pr st)).refs = st.repo.refs := by
  unfold processItem
  split
  next e heq => exact catchUp_refs_error ctx _ _ _ _ heq
  next o st1 heq =>
    have hx : st1.repo.refs = st.repo.refs := catchUp_refs_ok ctx _ _ _ _ _ heq
    repeat' split
    all_goals try exact hx
    exact (cherryRecord_refs ctx forks pr.1 st1 _ _ _).trans hx

/-- The main rewrite pass never touches the branch-ref table. -/
theorem runItems_refs (ctx : Ctx) (forks : ForkTable) : ∀ (prs : List (Item × Item)) (st : RwState),
    (prRepo (runItems ctx forks prs st)).refs = st.repo.refs
  | [], _ => rfl
  | pr :: rest, st => by
    unfold runItems
    have hpi := processItem_refs ctx forks pr st
    split
    next e heq =>
      rw [heq] at hpi
      exact hpi
    next st1 heq =>
      rw [heq] at hpi
      exact (runItems_refs ctx forks rest st1).trans hpi

/-- Seeding never touches the object store. -/
theorem seedStep_repo (items : List Item) (st st' : RwState)
    (h : seedStep items st = .ok st') : st'.repo = st.repo := by
  unfold seedStep at h
  split at h
  · cases h; rfl
  · split at h
    · split at h
      · cases h; rfl
      · cases h
    · cases h

/-- Errors of the Branch Ref Committer are missing-head panics. -/
theorem setBranches_error_shape : ∀ (bs : List Branch) (hs : List (Option Oid))
    (repo : Repo) (i : Nat) (p : Panic) (r : Repo),
    setBranches repo bs hs i = .error (p, r) → isRefUpdatePanic p = true
  | [], _, _, _, _, _, h => by cases h
  | _ :: _, [], _, _, _, _, h => by cases h
  | _ :: _, none :: _, _, i, p, r, h => by
    unfold setBranches at h
    cases h
    rfl
  | bh :: bs, some hv :: hs, repo, i, p, r, h => by
    unfold setBranches at h
    exact setBranches_error_shape bs hs _ (i + 1) p r h

/-- C7: branch refs are written only by the last-step Branch Ref Committer.
Any run that aborts with a panic other than the committer's own missing-head
panic leaves every pre-existing ref — in particular every input branch —
pointing at its pre-run target in the store state carried at the abort:
backup only creates fresh refs, and the collection, fork-detection and whole
rewrite phases never write refs. -/
theorem c7_refs_untouched_midrun (a : BackportArgs) (p : Panic) (r : Repo)
    (he : backport a = .error (p, r)) (hnp : isRefUpdatePanic p = false) :
    ∀ n v, rlookup a.repo.refs n = some v → rlookup r.refs n = some v := by
  intro n v hv
  have hbk : rlookup (bpRepo (if a.backup then backupPhase a.repo a.branches
      else .ok a.repo)).refs n = some v := by
    cases hab : a.backup with
    | false => simpa [bpRepo] using hv
    | true => exact backupPhase_pres a.branches a.repo n v hv
  unfold backport at he
  split at he
  · cases he; exact hv
  · split at he
    next pc heqc => cases he; exact hv
    next items0 heqc =>
      unfold backportRest at he
      split at he
      next pf heqf => cases he; exact hv
      next forks heqf =>
        split at he
        next e heqb =>
          cases he
          rw [heqb] at hbk
          exact hbk
        next repo1 heqb =>
          rw [heqb] at hbk
          split at he
          next pse heqs => cases he; exact hbk
          next st1 heqs =>
            have hs1 : st1.repo.refs = repo1.refs := by
              rw [seedStep_repo _ _ _ heqs]
              rfl
            split at he
            next e heqr =>
              cases he
              have hx := runItems_refs (mkCtx a) forks (itemPairs (applyEdit a.edit items0)) st1
              rw [heqr] at hx
              have hrr : r.refs = repo1.refs := hx.trans hs1
              rw [hrr]
              exact hbk
            next st2 heqr =>
              have h2 : st2.repo.refs = repo1.refs := by
                have hx := runItems_refs (mkCtx a) forks (itemPairs (applyEdit a.edit items0)) st1
                rw [heqr] at hx
                exact hx.trans hs1
              split at he
              next e heqcu =>
                cases he
                have hx := catchUp_refs_error (mkCtx a) _ _ _ _ heqcu
                have hrr : r.refs = repo1.refs := hx.trans h2
                rw [hrr]
                exact hbk
              next o st3 heqcu =>
                split at he
                next e heqsb =>
                  cases he
                  have hshape := setBranches_error_shape a.branches st3.heads st3.repo 0 p r heqsb
                  rw [hshape] at hnp
                  cases hnp
                next repoF heqsb => cases he

/-- Witness for C7 at the concrete aborting run `c5args` (which panics inside
the final catch-up, not at the ref committer): the pre-run `main` ref is
unchanged in the abort state. -/
theorem c7_refs_untouched_midrun_witness :
    rlookup (errRepoOf (backport c5args)).refs "main" = some 1 :=
  c7_refs_untouched_midrun c5args (errPanicOf (backport c5args)) (errRepoOf (backport c5args))
    rfl rfl "main" 1 rfl

/-- Reading a replicated list only ever yields the replicated element. -/
theorem lget_replicate_eq {α : Type} (a x : α) : ∀ (n b : Nat),
    lget (List.replicate n a) b = some x → x = a
  | 0, _, h => by cases h
  | _ + 1, 0, h => by cases h; rfl
  | n + 1, b + 1, h => lget_replicate_eq a x n b h

/-- Under the structural invariant, a dirty branch never holds a head. -/
theorem InvB.noHeadOfDirty {n : Nat} {st : RwState} (hI : InvB n st) :
    ∀ b h, lget st.dirty b = some true → lget st.heads b ≠ some (some h) := by
  intro b h hd hh
  obtain ⟨b', h', hlt, hh'⟩ := hI.dirtyImp b hd
  have := hI.atMostOne b b' h h' hh hh'
  omega

/-- Key behavioral lemma: when no dirty branch holds a head, a succeeding
`catch_up_branch` call did no work at all — it returns the state unchanged
and merely translated the branch's present head through the inverse map.
(The fast-forward path always dies on the inverse-map freshness assertion,
and the merge path would need a dirty branch with a head.) -/
theorem catchUp_frozen (ctx : Ctx) (st : RwState)
    (hD : ∀ b h, lget st.dirty b = some true → lget st.heads b ≠ some (some h)) :
    ∀ (fuel b : Nat) (o : Oid) (st' : RwState), catchUp ctx fuel b st = .ok (o, st') →
      st' = st ∧ ∃ h, lget st.heads b = some (some h) ∧ alookup st.inverse h = some o := by
  intro fuel
  induction fuel with
  | zero => intro b o st' h; cases h
  | succ fuel ih =>
    intro b o st' hok
    unfold catchUp at hok
    split at hok
    · split at hok
      next => cases hok
      next => cases hok
      next h heqh =>
        split at hok
        next => cases hok
        next o2 heqi =>
          cases hok
          exact ⟨rfl, h, heqh, heqi⟩
    · split at hok
      next => cases hok
      next heqd =>
        split at hok
        next => cases hok
        next => cases hok
        next h heqh =>
          split at hok
          next => cases hok
          next o2 heqi =>
            cases hok
            exact ⟨rfl, h, heqh, heqi⟩
      next heqd =>
        split at hok
        next => cases hok
        next orig st1 heqr =>
          obtain ⟨hst1, h1, hh1, hi1⟩ := ih (b + 1) orig st1 heqr
          rw [hst1] at hok
          split at hok
          next => cases hok
          next cur heqc =>
            split at hok
            next => cases hok
            next => cases hok
            next h1x heqh1 =>
              have hx1 : h1x = h1 := by
                rw [hh1] at heqh1
                injection heqh1 with e1
                injection e1 with e2
                exact e2.symm
              rw [hx1] at hok
              split at hok
              next =>
                -- fast-forward: the inverse-map freshness assertion fires
                unfold catchUpRecord at hok
                split at hok
                next => cases hok
                next ov heqov =>
                  split at hok
                  next => cases hok
                  next heqovl =>
                    split at hok
                    next => cases hok
                    next heqinv =>
                      have hx : alookup st.inverse h1 = none := heqinv
                      rw [hi1] at hx
                      cases hx
              next h2 =>
                -- merge path: a dirty branch with a head contradicts hD
                exact absurd heqc (hD b h2 heqd)

/-- The seeded/cherry-picked state after applying one item keeps the
structural invariant. -/
theorem cherryApply_invB {N : Nat} (it : Item) (st1 : RwState)
    (m1 inv1 : List (Oid × Oid)) (nd : CommitData) (hI : InvB N st1) (onto : Oid)
    (honto : lget st1.heads it.branchIndex = some (some onto)) :
    InvB N (cherryApply it st1 m1 inv1 nd) := by
  have hidx : it.branchIndex < st1.heads.length := lget_lt _ _ _ honto
  refine ⟨?_, ?_, ?_, ?_⟩
  · show (lset st1.heads it.branchIndex _).length = N
    rw [lset_length]
    exact hI.hlen
  · show (markBelow it.branchIndex st1.dirty).length = N
    rw [markBelow_length]
    exact hI.dlen
  · intro b b' h h' hb hb'
    have hb2 : lget (lset st1.heads it.branchIndex
        (some (createCommit st1.repo nd).1)) b = some (some h) := hb
    have hb'2 : lget (lset st1.heads it.branchIndex
        (some (createCommit st1.repo nd).1)) b' = some (some h') := hb'
    by_cases e1 : it.branchIndex = b
    · by_cases e2 : it.branchIndex = b'
      · omega
      · rw [lget_lset_ne _ _ _ _ e2] at hb'2
        have := hI.atMostOne b' it.branchIndex h' onto hb'2 honto
        omega
    · rw [lget_lset_ne _ _ _ _ e1] at hb2
      by_cases e2 : it.branchIndex = b'
      · have := hI.atMostOne b it.branchIndex h onto hb2 honto
        omega
      · rw [lget_lset_ne _ _ _ _ e2] at hb'2
        exact hI.atMostOne b b' h h' hb2 hb'2
  · intro b hdb
    have hdb2 : lget (markBelow it.branchIndex st1.dirty) b = some true := hdb
    rw [lget_markBelow] at hdb2
    have hhead : lget (lset st1.heads it.branchIndex
        (some (createCommit st1.repo nd).1)) it.branchIndex =
        some (some (createCommit st1.repo nd).1) := lget_lset_eq _ _ _ hidx
    by_cases hblt : b < it.branchIndex
    · exact ⟨it.branchIndex, (createCommit st1.repo nd).1, hblt, hhead⟩
    · rw [if_neg hblt] at hdb2
      obtain ⟨b', h', hlt, hh'⟩ := hI.dirtyImp b hdb2
      have := hI.atMostOne b' it.branchIndex h' onto hh' honto
      omega

/-- The cherry-pick bookkeeping tail preserves the structural invariant. -/
theorem cherryRecord_invB {N : Nat} (ctx : Ctx) (forks : ForkTable) (it : Item)
    (st1 : RwState) (m1 inv1 : List (Oid × Oid)) (nd : CommitData) (st' : RwState)
    (hI : InvB N st1) (onto : Oid)
    (honto : lget st1.heads it.branchIndex = some (some onto))
    (h : cherryRecord ctx forks it st1 m1 inv1 nd = .ok st') : InvB N st' := by
  have hI2 : InvB N (cherryApply it st1 m1 inv1 nd) :=
    cherryApply_invB it st1 m1 inv1 nd hI onto honto
  unfold cherryRecord at h
  split at h
  next => cases h
  next =>
    split at h
    next => cases h
    next =>
      split at h
      next => cases h
      next =>
        split at h
        next =>
          cases h
          exact hI2
        next fi heqf =>
          split at h
          next => cases h
          next o st3 heqcu =>
            obtain ⟨hst3, _⟩ :=
              catchUp_frozen ctx (cherryApply it st1 m1 inv1 nd)
                (InvB.noHeadOfDirty hI2) _ _ _ _ heqcu
            cases h
            rw [hst3]
            exact hI2

/-- A main-pass step preserves the structural invariant. -/
theorem processItem_invB {N : Nat} (ctx : Ctx) (forks : ForkTable) (pr : Item × Item)
    (st st' : RwState) (hI : InvB N st) (h : processItem ctx forks pr st = .ok st') :
    InvB N st' := by
  unfold processItem at h
  split at h
  next => cases h
  next o st1 heqcu =>
    obtain ⟨hst1, _⟩ := catchUp_frozen ctx st (InvB.noHeadOfDirty hI) _ _ _ _ heqcu
    subst hst1
    split at h
    next => cases h
    next d heqd =>
      split at h
      next => cases h
      next mainline heqm =>
        split at h
        next => cases h
        next => cases h
        next onto heqo =>
          split at h
          next => cases h
          next t heqt =>
            split at h
            next => cases h
            next ps m1 inv1 heqcp =>
              exact cherryRecord_invB ctx forks pr.1 st1 m1 inv1 _ st' hI onto heqo h

/-- The main pass preserves the structural invariant. -/
theorem runItems_invB {N : Nat} (ctx : Ctx) (forks : ForkTable) :
    ∀ (prs : List (Item × Item)) (st st' : RwState), InvB N st →
    runItems ctx forks prs st = .ok st' → InvB N st'
  | [], st, st', hI, h => by cases h; exact hI
  | pr :: rest, st, st', hI, h => by
    unfold runItems at h
    split at h
    next => cases h
    next st1 heq =>
      exact runItems_invB ctx forks rest st1 st'
        (processItem_invB ctx forks pr st st1 hI heq) h

/-- Every state of the main-pass trace satisfies the structural invariant. -/
theorem itemTrace_invB {N : Nat} (ctx : Ctx) (forks : ForkTable) :
    ∀ (prs : List (Item × Item)) (st : RwState), InvB N st →
    ∀ st' ∈ itemTrace ctx forks prs st, InvB N st'
  | [], st, hI, st', hm => by
    simp only [itemTrace, List.mem_singleton] at hm
    subst hm
    exact hI
  | pr :: rest, st, hI, st', hm => by
    simp only [itemTrace, List.mem_cons] at hm
    rcases hm with rfl | hm
    · exact hI
    · cases hp : processItem ctx forks pr st with
      | error e =>
        rw [hp] at hm
        cases hm
      | ok st1 =>
        rw [hp] at hm
        exact itemTrace_invB ctx forks rest st1
          (processItem_invB ctx forks pr st st1 hI hp) st' hm

/-- The initial rewrite state satisfies the structural invariant. -/
theorem initState_invB (repo : Repo) (n : Nat) : InvB n (initState repo n) := by
  refine ⟨by simp [initState], by simp [initState], ?_, ?_⟩
  · intro b b' h h' hb _
    have := lget_replicate_eq (none : Option Oid) (some h) n b hb
    cases this
  · intro b hdb
    have := lget_replicate_eq false true n b hdb
    cases this

/-- Seeding the oldest item establishes the structural invariant. -/
theorem seedStep_invB (items : List Item) (repo : Repo) (n : Nat) (st' : RwState)
    (h : seedStep items (initState repo n) = .ok st') : InvB n st' := by
  unfold seedStep at h
  split at h
  · cases h
    exact initState_invB repo n
  next it heql =>
    split at h
    next hidx =>
      split at h
      next hslice =>
        cases h
        have hidx2 : it.branchIndex < n := by
          simpa [initState] using hidx
        refine ⟨?_, ?_, ?_, ?_⟩
        · show (lset (List.replicate n none) it.branchIndex _).length = n
          rw [lset_length, List.length_replicate]
        · show (markBelow it.branchIndex (List.replicate n false)).length = n
          rw [markBelow_length, List.length_replicate]
        · intro b b' h h' hb hb'
          have hb2 : lget (lset (List.replicate n none) it.branchIndex
              (some it.commitId)) b = some (some h) := hb
          have hb'2 : lget (lset (List.replicate n none) it.branchIndex
              (some it.commitId)) b' = some (some h') := hb'
          by_cases e1 : it.branchIndex = b
          · by_cases e2 : it.branchIndex = b'
            · omega
            · rw [lget_lset_ne _ _ _ _ e2] at hb'2
              cases lget_replicate_eq (none : Option Oid) (some h') n b' hb'2
          · rw [lget_lset_ne _ _ _ _ e1] at hb2
            cases lget_replicate_eq (none : Option Oid) (some h) n b hb2
        · intro b hdb
          have hdb2 : lget (markBelow it.branchIndex (List.replicate n false)) b
              = some true := hdb
          rw [lget_markBelow] at hdb2
          by_cases hblt : b < it.branchIndex
          · refine ⟨it.branchIndex, it.commitId, hblt, ?_⟩
            show lget (lset (List.replicate n none) it.branchIndex (some it.commitId))
              it.branchIndex = some (some it.commitId)
            exact lget_lset_eq _ _ _ (by rw [List.length_replicate]; exact hidx2)
          · rw [if_neg hblt] at hdb2
            cases lget_replicate_eq false true n b hdb2
      next => cases h
    next => cases h

/-- Every state of the run's trace satisfies the structural invariant. -/
theorem backportTrace_invB (a : BackportArgs) :
    ∀ st ∈ backportTrace a, InvB a.branches.length st := by
  intro st hst
  unfold backportTrace at hst
  split at hst
  · cases hst
  · split at hst
    next => cases hst
    next items0 heqc =>
      split at hst
      next => cases hst
      next forks heqf =>
        split at hst
        next => cases hst
        next repo1 heqb =>
          split at hst
          next heqs =>
            simp only [List.mem_singleton] at hst
            subst hst
            exact initState_invB repo1 a.branches.length
          next st1 heqs =>
            simp only [List.mem_cons, List.mem_append] at hst
            rcases hst with (hst0 | hst) | hst
            · rw [hst0]
              exact initState_invB repo1 a.branches.length
            · exact itemTrace_invB (mkCtx a) forks _ st1
                (seedStep_invB _ repo1 a.branches.length st1 heqs) st hst
            · have hI1 := seedStep_invB _ repo1 a.branches.length st1 heqs
              cases hr : runItems (mkCtx a) forks (itemPairs (applyEdit a.edit items0)) st1 with
              | error e =>
                rw [hr] at hst
                cases hst
              | ok st2 =>
                rw [hr] at hst
                have hst2 : st ∈ (match catchUp (mkCtx a) (a.branches.length + 1) 0 st2 with
                    | Except.error _ => ([] : List RwState)
                    | Except.ok (_, st3) => [st3]) := hst
                have hI2 := runItems_invB (mkCtx a) forks _ st1 st2 hI1 hr
                cases hcu : catchUp (mkCtx a) (a.branches.length + 1) 0 st2 with
                | error e =>
                  rw [hcu] at hst2
                  cases hst2
                | ok v =>
                  obtain ⟨o, st3⟩ := v
                  rw [hcu] at hst2
                  simp only [List.mem_singleton] at hst2
                  subst hst2
                  obtain ⟨hst3, _⟩ :=
                    catchUp_frozen (mkCtx a) st2 (InvB.noHeadOfDirty hI2) _ _ _ _ hcu
                  rw [hst3]
                  exact hI2

/-- C8: the dirty flag of the most senior branch (index N-1) is never set at
any state of the run: initialization and post-cherry-pick marking only mark
branches strictly junior to an index that is at most N-1 (an index that must
have survived head indexing, hence is below N). -/
theorem c8_senior_dirty_never_set (a : BackportArgs) (st : RwState)
    (hst : st ∈ backportTrace a) :
    (lget st.dirty (a.branches.length - 1)).getD false = false := by
  have hI := backportTrace_invB a st hst
  cases hl : lget st.dirty (a.branches.length - 1) with
  | none => rfl
  | some v =>
    cases v with
    | false => rfl
    | true =>
      obtain ⟨b', h', hlt, hh'⟩ := hI.dirtyImp _ hl
      have hb' := lget_lt _ _ _ hh'
      rw [hI.hlen] at hb'
      omega

/-- The first state of the concrete run `c1args`, used as the C8 witness. -/
def c8wState : RwState :=
  match backportTrace c1args with
  | st :: _ => st
  | [] => initState repoOne 0

/-- Witness for C8 at the first trace state of the `c1args` run. -/
theorem c8_senior_dirty_never_set_witness :
    (lget c8wState.dirty (c1args.branches.length - 1)).getD false = false :=
  c8_senior_dirty_never_set c1args c8wState (by
    have h : backportTrace c1args = c8wState :: (backportTrace c1args).tail := rfl
    rw [h]
    exact List.mem_cons_self _ _)

/-- A successful association lookup comes from a list entry. -/
theorem alookup_mem {β : Type} : ∀ (l : List (Oid × β)) (k : Oid) (v : β),
    alookup l k = some v → (k, v) ∈ l
  | [], _, _, h => by cases h
  | (k', v') :: rest, k, v, h => by
    unfold alookup at h
    split at h
    next he =>
      cases h
      rw [he]
      exact List.mem_cons_self _ _
    next he => exact List.mem_cons_of_mem _ (alookup_mem rest k v h)

/-- An id of the original store lies below its fresh counter. -/
theorem origId_lt {r0 : Repo} (hwf : WFRepo r0) {c : Oid} (h : OrigId r0 c) :
    c < r0.nextOid := by
  unfold OrigId at h
  cases hl : lookupCommit r0 c with
  | none => rw [hl] at h; cases h
  | some d => exact (hwf (c, d) (alookup_mem _ _ _ hl)).1

/-- Parents read from the original store are original ids. -/
theorem origId_parents {r0 : Repo} (hwf : WFRepo r0) {c : Oid} {d : CommitData}
    (h : lookupCommit r0 c = some d) : ∀ p ∈ d.parents, OrigId r0 p := by
  intro p hp
  exact (hwf (c, d) (alookup_mem _ _ _ h)).2 p hp

/-- In an extended store, original ids resolve to their original payloads. -/
theorem RepoExtends.lookup_orig {r0 r : Repo} (hext : RepoExtends r0 r)
    (hwf : WFRepo r0) {c : Oid} (h : OrigId r0 c) :
    lookupCommit r c = lookupCommit r0 c :=
  hext.orig_lookup c (origId_lt hwf h)

/-- `RepoExtends` is reflexive on a well-formed store. -/
theorem repoExtends_refl {r0 : Repo} (hwf : WFRepo r0) : RepoExtends r0 r0 :=
  ⟨Nat.le_refl _, fun kd hkd => (hwf kd hkd).1, fun _ _ => rfl⟩

/-- Creating a commit preserves the extension relation. -/
theorem repoExtends_create {r0 r : Repo} (hext : RepoExtends r0 r) (d : CommitData) :
    RepoExtends r0 (createCommit r d).2 := by
  refine ⟨Nat.le_trans hext.next_le (Nat.le_succ _), ?_, ?_⟩
  · intro kd hkd
    simp only [createCommit, List.mem_cons] at hkd
    rcases hkd with rfl | hkd
    · exact Nat.lt_succ_self _
    · exact Nat.lt_trans (hext.keys_lt kd hkd) (Nat.lt_succ_self _)
  · intro c hc
    have hcr : c < r.nextOid := Nat.lt_of_lt_of_le hc hext.next_le
    have hne : r.nextOid ≠ c := by
      intro h
      rw [h] at hcr
      exact Nat.lt_irrefl _ hcr
    show alookup ((r.nextOid, d) :: r.commits) c = _
    unfold alookup
    rw [if_neg hne]
    exact hext.orig_lookup c hc

/-- The empty maps are mutual inverses. -/
theorem mutualInv_nil : MutualInv [] [] := by
  intro x y
  constructor <;> (intro h; cases h)

/-- The singleton identity maps (the seeded state) are mutual inverses. -/
theorem mutualInv_single (o : Oid) : MutualInv (ainsert [] o o) (ainsert [] o o) := by
  intro x y
  show (if o = x then some o else none) = some y ↔ (if o = y then some o else none) = some x
  by_cases hx : o = x
  · subst hx
    by_cases hy : o = y
    · subst hy
      exact Iff.rfl
    · rw [if_pos rfl, if_neg hy]
      constructor
      · intro h
        injection h with h
        exact absurd h hy
      · intro h
        cases h
  · rw [if_neg hx]
    by_cases hy : o = y
    · subst hy
      rw [if_pos rfl]
      constructor
      · intro h
        cases h
      · intro h
        injection h with h
        exact absurd h hx
    · rw [if_neg hy]
      constructor <;> (intro h; cases h)

/-- Inserting a fresh non-identity pair `orig -> new` into the forward map
and `new -> orig` into the inverse map preserves mutual inversehood, given
both keys are fresh (the engine's freshness assertions). -/
theorem mutualInv_insert_pair {m inv : List (Oid × Oid)} {o n : Oid}
    (hmi : MutualInv m inv) (hm : alookup m o = none) (hi : alookup inv n = none) :
    MutualInv (ainsert m o n) (ainsert inv n o) := by
  intro x y
  show (if o = x then some n else alookup m x) = some y ↔
    (if n = y then some o else alookup inv y) = some x
  by_cases hx : o = x
  · subst hx
    rw [if_pos rfl]
    by_cases hy : n = y
    · subst hy
      rw [if_pos rfl]
      simp
    · rw [if_neg hy]
      constructor
      · intro h
        injection h with h
        exact absurd h hy
      · intro h
        have := (hmi o y).mpr h
        rw [hm] at this
        cases this
  · rw [if_neg hx]
    by_cases hy : n = y
    · subst hy
      rw [if_pos rfl]
      constructor
      · intro h
        have := (hmi x n).mp h
        rw [hi] at this
        cases this
      · intro h
        injection h with h
        exact absurd h hx
    · rw [if_neg hy]
      exact hmi x y

/-- Inserting an identity pair `c -> c` into both maps preserves mutual
inversehood, provided `c` was unchanged and nothing else mapped to `c`
(which `map_commit` guarantees for commits of the original region). -/
theorem mutualInv_insert_id {m inv : List (Oid × Oid)} {c : Oid}
    (hmi : MutualInv m inv) (hu : Unchanged m c)
    (hno : ∀ a, alookup m a = some c → a = c) :
    MutualInv (ainsert m c c) (ainsert inv c c) := by
  intro x y
  show (if c = x then some c else alookup m x) = some y ↔
    (if c = y then some c else alookup inv y) = some x
  by_cases hx : c = x
  · subst hx
    rw [if_pos rfl]
    by_cases hy : c = y
    · subst hy
      rw [if_pos rfl]
    · rw [if_neg hy]
      constructor
      · intro h
        injection h with h
        exact absurd h hy
      · intro h
        have h2 := (hmi c y).mpr h
        have := hu y h2
        exact absurd this.symm hy
  · rw [if_neg hx]
    by_cases hy : c = y
    · subst hy
      rw [if_pos rfl]
      constructor
      · intro h
        exact absurd (hno x h) (fun hh => hx hh.symm)
      · intro h
        injection h with h
        exact absurd h hx
    · rw [if_neg hy]
      exact hmi x y

/-- `IdExtends` is reflexive. -/
theorem idExtends_refl (m : List (Oid × Oid)) : IdExtends m m :=
  fun _ _ h => Or.inl h

/-- `IdExtends` is transitive. -/
theorem idExtends_trans {m1 m2 m3 : List (Oid × Oid)}
    (h12 : IdExtends m1 m2) (h23 : IdExtends m2 m3) : IdExtends m1 m3 := by
  intro x y h
  rcases h23 x y h with h2 | h2
  · exact h12 x y h2
  · exact Or.inr h2

/-- Adding an identity entry is an identity extension. -/
theorem idExtends_insert_id (m : List (Oid × Oid)) (c : Oid) :
    IdExtends m (ainsert m c c) := by
  intro x y h
  show _ ∨ _
  revert h
  show (if c = x then some c else alookup m x) = some y → _
  by_cases hx : c = x
  · subst hx
    rw [if_pos rfl]
    intro h
    injection h with h
    exact Or.inr h
  · rw [if_neg hx]
    exact fun h => Or.inl h

/-- `map_commit` preserves the map invariants — mutual inversehood and the
created-range property of non-identity images — and only ever adds identity
entries, whenever it is run on original-region ids over an extended store. -/
theorem mapCommitAux_pres {r0 : Repo} (hwf : WFRepo r0) {r : Repo}
    (hext : RepoExtends r0 r) (fuel : Nat) :
    ∀ (task : MTask) (m inv : List (Oid × Oid)) (vs : List Oid)
      (m' inv' : List (Oid × Oid)),
      mapCommitAux r fuel task (m, inv) = .ok (vs, (m', inv')) →
      (∀ c ∈ mtaskIds task, OrigId r0 c) →
      MutualInv m inv → MapOrig r0 m →
      MutualInv m' inv' ∧ MapOrig r0 m' ∧ IdExtends m m' := by
  induction fuel with
  | zero => intro task m inv vs m' inv' h _ _ _; cases h
  | succ fuel ih =>
    intro task m inv vs m' inv' h hor hmi hmo
    cases task with
    | one c =>
      unfold mapCommitAux at h
      split at h
      next => cases h
      next d heqd =>
        split at h
        next v heqv =>
          cases h
          exact ⟨hmi, hmo, idExtends_refl m⟩
        next heqv =>
          split at h
          next => cases h
          next vs1 m1 inv1 heqrec =>
            have hc : OrigId r0 c := hor c (List.mem_singleton.mpr rfl)
            have hpar : ∀ p ∈ mtaskIds (MTask.many d.parents), OrigId r0 p := by
              intro p hp
              have hl : lookupCommit r0 c = some d := by
                rw [← hext.lookup_orig hwf hc]
                exact heqd
              exact origId_parents hwf hl p hp
            obtain ⟨hmi1, hmo1, hid1⟩ :=
              ih (.many d.parents) m inv vs1 m1 inv1 heqrec hpar hmi hmo
            split at h
            next hpeq =>
              cases h
              have hcnone : alookup m c = none := heqv
              have hu1 : Unchanged m1 c := by
                intro v hv
                rcases hid1 c v hv with hold | hidc
                · rw [hcnone] at hold
                  cases hold
                · exact hidc.symm
              have hno1 : ∀ a, alookup m1 a = some c → a = c := by
                intro a ha
                by_cases hac : a = c
                · exact hac
                · rcases hid1 a c ha with hold | hidc
                  · have h1 := hmo a c hold hac
                    have h2 := origId_lt hwf hc
                    exact absurd h1 (Nat.not_le.mpr h2)
                  · exact hidc
              refine ⟨mutualInv_insert_id hmi1 hu1 hno1, ?_, ?_⟩
              · intro a b hab hne
                revert hab
                show (if c = a then some c else alookup m1 a) = some b → _
                by_cases hca : c = a
                · rw [if_pos hca]
                  intro hh
                  injection hh with hh
                  exact absurd (hca.symm.trans hh) hne
                · rw [if_neg hca]
                  intro hh
                  exact hmo1 a b hh hne
              · exact idExtends_trans hid1 (idExtends_insert_id m1 c)
            next => cases h
    | many cs =>
      cases cs with
      | nil =>
        unfold mapCommitAux at h
        cases h
        exact ⟨hmi, hmo, idExtends_refl m⟩
      | cons p ps =>
        unfold mapCommitAux at h
        split at h
        next => cases h
        next vs1 s1 heq1 =>
          obtain ⟨m1, inv1⟩ := s1
          obtain ⟨hmiA, hmoA, hidA⟩ :=
            ih (.one p) m inv vs1 m1 inv1 heq1
              (by
                intro x hx
                rw [List.mem_singleton.mp hx]
                exact hor p (List.mem_cons_self _ _))
              hmi hmo
          split at h
          next => cases h
          next ws s2 heq2 =>
            obtain ⟨m2, inv2⟩ := s2
            obtain ⟨hmiB, hmoB, hidB⟩ :=
              ih (.many ps) m1 inv1 ws m2 inv2 heq2
                (fun x hx => hor x (List.mem_cons_of_mem _ hx)) hmiA hmoA
            cases h
            exact ⟨hmiB, hmoB, idExtends_trans hidA hidB⟩

/-- The single-commit `map_commit` wrapper preserves the map invariants. -/
theorem mapCommit_pres {r0 : Repo} (hwf : WFRepo r0) {r : Repo}
    (hext : RepoExtends r0 r) (fuel : Nat) (c : Oid) (m inv : List (Oid × Oid))
    (v : Oid) (m' inv' : List (Oid × Oid))
    (h : mapCommit r fuel c (m, inv) = .ok (v, (m', inv')))
    (hc : OrigId r0 c) (hmi : MutualInv m inv) (hmo : MapOrig r0 m) :
    MutualInv m' inv' ∧ MapOrig r0 m' := by
  unfold mapCommit at h
  split at h
  next => cases h
  next vs s1 heq =>
    obtain ⟨m1, inv1⟩ := s1
    have hb := mapCommitAux_pres hwf hext fuel (.one c) m inv vs m1 inv1 heq
      (by
        intro x hx
        rw [List.mem_singleton.mp hx]
        exact hc)
      hmi hmo
    cases h
    exact ⟨hb.1, hb.2.1⟩

/-- Resolving a cherry-pick parent list preserves the map invariants. -/
theorem cherryParents_pres {r0 : Repo} (hwf : WFRepo r0) {r : Repo}
    (hext : RepoExtends r0 r) (target onto : Oid) :
    ∀ (ps : List Oid) (m inv : List (Oid × Oid)) (vs : List Oid)
      (m' inv' : List (Oid × Oid)),
      cherryParents r target onto ps (m, inv) = .ok (vs, (m', inv')) →
      (∀ p ∈ ps, OrigId r0 p) → MutualInv m inv → MapOrig r0 m →
      MutualInv m' inv' ∧ MapOrig r0 m'
  | [], m, inv, vs, m', inv', h, _, hmi, hmo => by
    cases h
    exact ⟨hmi, hmo⟩
  | p :: ps, m, inv, vs, m', inv', h, hor, hmi, hmo => by
    unfold cherryParents at h
    split at h
    next => cases h
    next heqd =>
      split at h
      · split at h
        next => cases h
        next vs1 s1 heq1 =>
          obtain ⟨m1, inv1⟩ := s1
          have hres := cherryParents_pres hwf hext target onto ps m inv vs1 m1 inv1 heq1
            (fun x hx => hor x (List.mem_cons_of_mem _ hx)) hmi hmo
          cases h
          exact hres
      · split at h
        next => cases h
        next v s1 heq1 =>
          obtain ⟨m1, inv1⟩ := s1
          split at h
          next => cases h
          next vs2 s2 heq2 =>
            obtain ⟨m2, inv2⟩ := s2
            obtain ⟨hmiA, hmoA⟩ := mapCommit_pres hwf hext _ p m inv v m1 inv1 heq1
              (hor p (List.mem_cons_self _ _)) hmi hmo
            have hres := cherryParents_pres hwf hext target onto ps m1 inv1 vs2 m2 inv2 heq2
              (fun x hx => hor x (List.mem_cons_of_mem _ hx)) hmiA hmoA
            cases h
            exact hres

/-- The cherry-pick bookkeeping tail preserves the map invariants: the fresh
`original -> new` pair keeps the maps mutual inverses (its freshness is
asserted), the new image lies in the created range, and the store only
grows. -/
theorem cherryRecord_invM {N : Nat} {r0 : Repo} (ctx : Ctx) (forks : ForkTable)
    (it : Item) (st1 : RwState) (m1 inv1 : List (Oid × Oid)) (nd : CommitData)
    (st' : RwState) (hB1 : InvB N st1) (onto : Oid)
    (honto : lget st1.heads it.branchIndex = some (some onto))
    (hext : RepoExtends r0 st1.repo)
    (hmi1 : MutualInv m1 inv1) (hmo1 : MapOrig r0 m1)
    (h : cherryRecord ctx forks it st1 m1 inv1 nd = .ok st') :
    MutualInv st'.map st'.inverse ∧ MapOrig r0 st'.map ∧ RepoExtends r0 st'.repo := by
  unfold cherryRecord at h
  split at h
  next => cases h
  next hm1none =>
    split at h
    next => cases h
    next hinvnone =>
      split at h
      next => cases h
      next =>
        have hmiA : MutualInv (cherryApply it st1 m1 inv1 nd).map
            (cherryApply it st1 m1 inv1 nd).inverse :=
          mutualInv_insert_pair hmi1 hm1none hinvnone
        have hmoA : MapOrig r0 (cherryApply it st1 m1 inv1 nd).map := by
          intro a b hab hne
          revert hab
          show (if it.commitId = a then some (createCommit st1.repo nd).1
            else alookup m1 a) = some b → _
          by_cases hia : it.commitId = a
          · rw [if_pos hia]
            intro hh
            injection hh with hh
            rw [← hh]
            exact hext.next_le
          · rw [if_neg hia]
            intro hh
            exact hmo1 a b hh hne
        have hextA : RepoExtends r0 (cherryApply it st1 m1 inv1 nd).repo :=
          repoExtends_create hext nd
        split at h
        next =>
          cases h
          exact ⟨hmiA, hmoA, hextA⟩
        next fi heqf =>
          split at h
          next => cases h
          next o st3 heqcu2 =>
            have hB2 : InvB N (cherryApply it st1 m1 inv1 nd) :=
              cherryApply_invB it st1 m1 inv1 nd hB1 onto honto
            obtain ⟨hst3, _⟩ :=
              catchUp_frozen ctx (cherryApply it st1 m1 inv1 nd)
                (InvB.noHeadOfDirty hB2) _ _ _ _ heqcu2
            cases h
            rw [hst3]
            exact ⟨hmiA, hmoA, hextA⟩

/-- A main-pass step preserves the map invariants, given the structural
invariant and an original-region item id. -/
theorem processItem_invM {N : Nat} {r0 : Repo} (hwf : WFRepo r0) (ctx : Ctx)
    (forks : ForkTable) (pr : Item × Item) (st st' : RwState) (hB : InvB N st)
    (hmi : MutualInv st.map st.inverse) (hmo : MapOrig r0 st.map)
    (hext : RepoExtends r0 st.repo) (hor : OrigId r0 pr.1.commitId)
    (h : processItem ctx forks pr st = .ok st') :
    MutualInv st'.map st'.inverse ∧ MapOrig r0 st'.map ∧ RepoExtends r0 st'.repo := by
  unfold processItem at h
  split at h
  next => cases h
  next o st1 heqcu =>
    obtain ⟨hst1, _⟩ := catchUp_frozen ctx st (InvB.noHeadOfDirty hB) _ _ _ _ heqcu
    rw [hst1] at h
    split at h
    next => cases h
    next d heqd =>
      split at h
      next => cases h
      next mainline heqm =>
        split at h
        next => cases h
        next => cases h
        next onto heqo =>
          split at h
          next => cases h
          next t heqt =>
            split at h
            next => cases h
            next ps m1 inv1 heqcp =>
              have hpar : ∀ p ∈ d.parents, OrigId r0 p := by
                have hl : lookupCommit r0 pr.1.commitId = some d := by
                  rw [← hext.lookup_orig hwf hor]
                  exact heqd
                exact origId_parents hwf hl
              obtain ⟨hmi1, hmo1⟩ := cherryParents_pres hwf hext _ _ d.parents
                st.map st.inverse ps m1 inv1 heqcp hpar hmi hmo
              exact cherryRecord_invM ctx forks pr.1 st m1 inv1 _ st' hB onto heqo
                hext hmi1 hmo1 h

/-- The main pass preserves the map invariants. -/
theorem runItems_invM {N : Nat} {r0 : Repo} (hwf : WFRepo r0) (ctx : Ctx)
    (forks : ForkTable) :
    ∀ (prs : List (Item × Item)) (st st' : RwState), InvB N st →
    MutualInv st.map st.inverse → MapOrig r0 st.map → RepoExtends r0 st.repo →
    (∀ pr ∈ prs, OrigId r0 pr.1.commitId) →
    runItems ctx forks prs st = .ok st' →
    MutualInv st'.map st'.inverse ∧ MapOrig r0 st'.map ∧ RepoExtends r0 st'.repo
  | [], st, st', _, hmi, hmo, hext, _, h => by
    cases h
    exact ⟨hmi, hmo, hext⟩
  | pr :: rest, st, st', hB, hmi, hmo, hext, hor, h => by
    unfold runItems at h
    split at h
    next => cases h
    next st1 heq =>
      obtain ⟨hmi1, hmo1, hext1⟩ := processItem_invM hwf ctx forks pr st st1 hB hmi hmo
        hext (hor pr (List.mem_cons_self _ _)) heq
      exact runItems_invM hwf ctx forks rest st1 st'
        (processItem_invB ctx forks pr st st1 hB heq) hmi1 hmo1 hext1
        (fun x hx => hor x (List.mem_cons_of_mem _ hx)) h

/-- Every state of the main-pass trace keeps the forward and inverse maps
mutual inverses. -/
theorem itemTrace_invM {N : Nat} {r0 : Repo} (hwf : WFRepo r0) (ctx : Ctx)
    (forks : ForkTable) :
    ∀ (prs : List (Item × Item)) (st : RwState), InvB N st →
    MutualInv st.map st.inverse → MapOrig r0 st.map → RepoExtends r0 st.repo →
    (∀ pr ∈ prs, OrigId r0 pr.1.commitId) →
    ∀ st' ∈ itemTrace ctx forks prs st, MutualInv st'.map st'.inverse
  | [], st, _, hmi, _, _, _, st', hm => by
    simp only [itemTrace, List.mem_singleton] at hm
    rw [hm]
    exact hmi
  | pr :: rest, st, hB, hmi, hmo, hext, hor, st', hm => by
    simp only [itemTrace, List.mem_cons] at hm
    rcases hm with hm0 | hm
    · rw [hm0]
      exact hmi
    · cases hp : processItem ctx forks pr st with
      | error e =>
        rw [hp] at hm
        cases hm
      | ok st1 =>
        rw [hp] at hm
        obtain ⟨hmi1, hmo1, hext1⟩ := processItem_invM hwf ctx forks pr st st1 hB hmi hmo
          hext (hor pr (List.mem_cons_self _ _)) hp
        exact itemTrace_invM hwf ctx forks rest st1
          (processItem_invB ctx forks pr st st1 hB hp) hmi1 hmo1 hext1
          (fun x hx => hor x (List.mem_cons_of_mem _ hx)) st' hm

/-- Seeding establishes the map invariants. -/
theorem seedStep_invM {r0 : Repo} (items : List Item) (repo1 : Repo) (n : Nat)
    (st' : RwState) (hext : RepoExtends r0 repo1)
    (h : seedStep items (initState repo1 n) = .ok st') :
    MutualInv st'.map st'.inverse ∧ MapOrig r0 st'.map ∧ RepoExtends r0 st'.repo := by
  unfold seedStep at h
  split at h
  · cases h
    refine ⟨mutualInv_nil, ?_, hext⟩
    intro a b hab
    cases hab
  next it heql =>
    split at h
    · split at h
      · cases h
        refine ⟨mutualInv_single it.commitId, ?_, hext⟩
        intro a b hab hne
        revert hab
        show (if it.commitId = a then some it.commitId else alookup [] a) = some b → _
        by_cases hia : it.commitId = a
        · rw [if_pos hia]
          intro hh
          injection hh with hh
          exact absurd (hia.symm.trans hh) hne
        · rw [if_neg hia]
          intro hh
          cases hh
      · cases h
    · cases h

/-- Backing up one branch changes only refs. -/
theorem backupOne_commits {repo r1 : Repo} {b : Branch} (h : backupOne repo b = .ok r1) :
    r1.commits = repo.commits ∧ r1.nextOid = repo.nextOid := by
  unfold backupOne at h
  split at h
  next => cases h
  next =>
    split at h
    next => cases h
    next =>
      cases h
      exact ⟨rfl, rfl⟩

/-- The Backup step changes only refs. -/
theorem backupPhase_commits : ∀ (bs : List Branch) (repo r1 : Repo),
    backupPhase repo bs = .ok r1 → r1.commits = repo.commits ∧ r1.nextOid = repo.nextOid
  | [], repo, r1, h => by
    cases h
    exact ⟨rfl, rfl⟩
  | b :: bs, repo, r1, h => by
    unfold backupPhase at h
    split at h
    next => cases h
    next rx heq =>
      obtain ⟨h1, h2⟩ := backupOne_commits heq
      obtain ⟨h3, h4⟩ := backupPhase_commits bs rx r1 h
      exact ⟨h3.trans h1, h4.trans h2⟩

/-- A store with the original commits and counter extends the original. -/
theorem repoExtends_of_backup {r0 repo1 : Repo} (hwf : WFRepo r0)
    (hc : repo1.commits = r0.commits) (hn : repo1.nextOid = r0.nextOid) :
    RepoExtends r0 repo1 := by
  refine ⟨by rw [hn], ?_, ?_⟩
  · intro kd hkd
    rw [hn]
    exact (hwf kd (by rw [← hc]; exact hkd)).1
  · intro c hcm
    show alookup repo1.commits c = alookup r0.commits c
    rw [hc]

/-- Every item the walk of one branch pair pushes resolves in the store. -/
theorem walkPair_origIds (repo : Repo) (idx : Nat) (target : Oid) :
    ∀ (fuel : Nat) (cur : Oid) (acc items : List Item),
    walkPair repo idx target fuel cur acc = .ok items →
    (∀ it ∈ acc, OrigId repo it.commitId) →
    ∀ it ∈ items, OrigId repo it.commitId
  | 0, _, _, _, h, _ => by cases h
  | fuel + 1, cur, acc, items, h, hacc => by
    unfold walkPair at h
    split at h
    · cases h
      exact hacc
    · split at h
      next => cases h
      next d heqd =>
        have haug : ∀ it ∈ acc ++ [(⟨cur, idx⟩ : Item)], OrigId repo it.commitId := by
          intro it hit
          rcases List.mem_append.mp hit with h1 | h2
          · exact hacc it h1
          · rw [List.mem_singleton.mp h2]
            show (lookupCommit repo cur).isSome = true
            rw [heqd]
            rfl
        split at h
        · split at h
          next => cases h
          next => exact walkPair_origIds repo idx target fuel _ _ items h haug
        · split at h
          next => cases h
          next ms vis heqs =>
            split at h
            next m => exact walkPair_origIds repo idx target fuel _ _ items h haug
            next => cases h

/-- Every collected item resolves in the store. -/
theorem collectPairs_origIds (repo : Repo) : ∀ (i : Nat) (bs : List Branch)
    (items : List Item), collectPairs repo i bs = .ok items →
    ∀ it ∈ items, OrigId repo it.commitId
  | _, [], _, h => by
    cases h
    intro it hit
    cases hit
  | _, [_], _, h => by
    cases h
    intro it hit
    cases hit
  | i, cur :: par :: rest, items, h => by
    unfold collectPairs at h
    split at h
    next => cases h
    next =>
      split at h
      next => cases h
      next =>
        split at h
        next => cases h
        next its1 heqw =>
          split at h
          next => cases h
          next more heqm =>
            cases h
            intro it hit
            rcases List.mem_append.mp hit with h1 | h2
            · exact walkPair_origIds repo i par.tip _ cur.tip [] its1 heqw
                (by intro x hx; cases hx) it h1
            · exact collectPairs_origIds repo (i + 1) (par :: rest) more heqm it h2

/-- The edit only rewrites target indices, so edited items keep resolving. -/
theorem applyEditAux_origIds (repo : Repo) (f : Nat → Nat → Nat) :
    ∀ (i : Nat) (items : List Item), (∀ it ∈ items, OrigId repo it.commitId) →
    ∀ it ∈ applyEditAux f i items, OrigId repo it.commitId
  | _, [], _, it, hit => by cases hit
  | i, it0 :: rest, hall, it, hit => by
    rcases List.mem_cons.mp hit with hm0 | h2
    · rw [hm0]
      exact hall it0 (List.mem_cons_self _ _)
    · exact applyEditAux_origIds repo f (i + 1) rest
        (fun x hx => hall x (List.mem_cons_of_mem _ hx)) it h2

/-- The junior item of a main-pass window is a collected item. -/
theorem itemPairs_mem_fst {items : List Item} {pr : Item × Item}
    (h : pr ∈ itemPairs items) : pr.1 ∈ items := by
  unfold itemPairs at h
  exact (List.of_mem_zip (List.mem_reverse.mp h)).1

/-- C3: at every state of the run — at initialization, after seeding, before
every main-pass item and after the final catch-up — the forward map and the
inverse map are exact mutual inverses: the forward map sends `x` to `y`
precisely when the inverse map sends `y` back to `x` (which subsumes
mutual inversehood over their shared domain), for any well-formed input
store. -/
theorem c3_maps_mutual_inverse (a : BackportArgs) (hwf : WFRepo a.repo) :
    ∀ st ∈ backportTrace a, MutualInv st.map st.inverse := by
  intro st hst
  unfold backportTrace at hst
  split at hst
  · cases hst
  · split at hst
    next => cases hst
    next items0 heqc =>
      split at hst
      next => cases hst
      next forks heqf =>
        split at hst
        next => cases hst
        next repo1 heqb =>
          have hext1 : RepoExtends a.repo repo1 := by
            cases hab : a.backup with
            | false =>
              rw [hab] at heqb
              have h2 : Except.ok (ε := Panic × Repo) a.repo = Except.ok repo1 := heqb
              cases h2
              exact repoExtends_refl hwf
            | true =>
              rw [hab] at heqb
              have h2 : backupPhase a.repo a.branches = Except.ok repo1 := heqb
              obtain ⟨hc2, hn2⟩ := backupPhase_commits a.branches a.repo repo1 h2
              exact repoExtends_of_backup hwf hc2 hn2
          have horig : ∀ pr ∈ itemPairs (applyEdit a.edit items0),
              OrigId a.repo pr.1.commitId := by
            intro pr hpr
            exact applyEditAux_origIds a.repo a.edit 0 items0
              (collectPairs_origIds a.repo 0 a.branches items0 heqc) pr.1
              (itemPairs_mem_fst hpr)
          split at hst
          next heqs =>
            simp only [List.mem_singleton] at hst
            rw [hst]
            exact mutualInv_nil
          next st1 heqs =>
            obtain ⟨hmi1, hmo1, hext1s⟩ :=
              seedStep_invM (applyEdit a.edit items0) repo1 a.branches.length st1
                hext1 heqs
            have hB1 := seedStep_invB (applyEdit a.edit items0) repo1
              a.branches.length st1 heqs
            simp only [List.mem_cons, List.mem_append] at hst
            rcases hst with (hst0 | hst) | hst
            · rw [hst0]
              exact mutualInv_nil
            · exact itemTrace_invM hwf (mkCtx a) forks _ st1 hB1 hmi1 hmo1 hext1s
                horig st hst
            · cases hr : runItems (mkCtx a) forks (itemPairs (applyEdit a.edit items0))
                  st1 with
              | error e =>
                rw [hr] at hst
                cases hst
              | ok st2 =>
                rw [hr] at hst
                have hst2m : st ∈ (match catchUp (mkCtx a) (a.branches.length + 1) 0 st2 with
                    | Except.error _ => ([] : List RwState)
                    | Except.ok (_, st3) => [st3]) := hst
                obtain ⟨hmi2, hmo2, hext2⟩ := runItems_invM hwf (mkCtx a) forks _ st1 st2
                  hB1 hmi1 hmo1 hext1s horig hr
                have hB2 := runItems_invB (mkCtx a) forks _ st1 st2 hB1 hr
                cases hcu : catchUp (mkCtx a) (a.branches.length + 1) 0 st2 with
                | error e =>
                  rw [hcu] at hst2m
                  cases hst2m
                | ok v =>
                  obtain ⟨o, st3⟩ := v
                  rw [hcu] at hst2m
                  simp only [List.mem_singleton] at hst2m
                  rw [hst2m]
                  obtain ⟨hst3, _⟩ :=
                    catchUp_frozen (mkCtx a) st2 (InvB.noHeadOfDirty hB2) _ _ _ _ hcu
                  rw [hst3]
                  exact hmi2

/-- The first state of the concrete run `c1args`, used as the C3 witness. -/
def c3wState : RwState :=
  match backportTrace c1args with
  | st :: _ => st
  | [] => initState repoOne 0

/-- Lookups already bound in `m` persist into `m2`: nothing is overwritten. -/
def MapPres (m m2 : List (Oid × Oid)) : Prop :=
  ∀ x y, alookup m x = some y → alookup m2 x = some y

/-- `MapPres` is reflexive. -/
theorem mapPres_refl (m : List (Oid × Oid)) : MapPres m m :=
  fun _ _ h => h

/-- `MapPres` is transitive. -/
theorem mapPres_trans {m1 m2 m3 : List (Oid × Oid)}
    (h12 : MapPres m1 m2) (h23 : MapPres m2 m3) : MapPres m1 m3 :=
  fun x y h => h23 x y (h12 x y h)

/-- Inserting at a key absent from the base map preserves its lookups. -/
theorem mapPres_insert_fresh {m m1 : List (Oid × Oid)} {c : Oid}
    (hP : MapPres m m1) (hmc : alookup m c = none) : MapPres m (ainsert m1 c c) := by
  intro x y hx
  show (if c = x then some c else alookup m1 x) = some y
  by_cases hcx : c = x
  · rw [← hcx] at hx
    rw [hmc] at hx
    cases hx
  · rw [if_neg hcx]
    exact hP x y hx

/-- Identity-only growth of the map cannot change an unchanged id. -/
theorem unchanged_of_idExtends {m1 m2 : List (Oid × Oid)} (hE : IdExtends m1 m2)
    {b : Oid} (h : Unchanged m1 b) : Unchanged m2 b := by
  intro v hv
  rcases hE b v hv with h2 | h2
  · exact h v h2
  · exact h2.symm

/-- An id unchanged in an overwrite-free extension was unchanged before. -/
theorem unchanged_reflect {m1 m2 : List (Oid × Oid)} (hP : MapPres m1 m2)
    {b : Oid} (h : Unchanged m2 b) : Unchanged m1 b := by
  intro v hv
  exact h v (hP b v hv)

/-- A successful single-commit `map_commit` either returns the commit itself
(the fresh identity registration) or returns its memoized image. -/
theorem mapCommitAux_one_value (repo : Repo) : ∀ (fuel : Nat) (c : Oid)
    (m inv : List (Oid × Oid)) (vs : List Oid)
    (s1 : List (Oid × Oid) × List (Oid × Oid)),
    mapCommitAux repo fuel (.one c) (m, inv) = .ok (vs, s1) →
    vs = [c] ∨ alookup m c = some vs.headI
  | 0, _, _, _, _, _, h => by cases h
  | fuel + 1, c, m, inv, vs, s1, h => by
    unfold mapCommitAux at h
    split at h
    next => cases h
    next d heqd =>
      split at h
      next w heqw =>
        cases h
        right
        exact heqw
      next hmc =>
        split at h
        next => cases h
        next ws m1 inv1 heqr =>
          split at h
          next =>
            cases h
            left
            rfl
          next => cases h

/-- Induction bundle for `map_commit`: on an identity-ancestry-closed map, a
successful resolution never overwrites entries, grows the map only by
identity registrations, keeps identity entries ancestry-closed, returns one
value per requested id, and — the C6 core — returns the requested ids
unchanged only if every reflexive ancestor of each is unchanged in the
entry map. -/
theorem mapCommitAux_outside (repo : Repo) : ∀ (fuel : Nat) (task : MTask)
    (m inv : List (Oid × Oid)) (vs : List Oid) (m' inv' : List (Oid × Oid)),
    mapCommitAux repo fuel task (m, inv) = .ok (vs, (m', inv')) →
    IdentityClosed repo m →
    MapPres m m' ∧ IdExtends m m' ∧ IdentityClosed repo m' ∧
    vs.length = (mtaskIds task).length ∧
    (vs = mtaskIds task → ∀ p ∈ mtaskIds task, ∀ b, Reaches repo p b → Unchanged m b)
  | 0, _, _, _, _, _, _, h, _ => by cases h
  | fuel + 1, .one c, m, inv, vs, m', inv', h, hic => by
    unfold mapCommitAux at h
    split at h
    next => cases h
    next d heqd =>
      split at h
      next w heqw =>
        cases h
        refine ⟨mapPres_refl m, idExtends_refl m, hic, rfl, ?_⟩
        intro hveq p hp b hr
        have hveq2 : ([w] : List Oid) = [c] := hveq
        injection hveq2 with hwc htl
        have hp2 : p ∈ ([c] : List Oid) := hp
        rw [List.mem_singleton.mp hp2] at hr
        rw [hwc] at heqw
        exact hic c heqw b hr
      next hmc =>
        split at h
        next => cases h
        next ws m1 inv1 heqr =>
          obtain ⟨hP1, hE1, hC1, hL1, hV1⟩ :=
            mapCommitAux_outside repo fuel (.many d.parents) m inv ws m1 inv1 heqr hic
          split at h
          next heqp =>
            cases h
            have hV2 : ∀ p ∈ d.parents, ∀ b, Reaches repo p b → Unchanged m b :=
              hV1 heqp.symm
            have hreach : ∀ b, Reaches repo c b → Unchanged m b := by
              intro b hr
              cases hr with
              | refl =>
                intro v hv
                rw [hmc] at hv
                cases hv
              | step h1 h2 h3 =>
                rw [heqd] at h1
                injection h1 with h1
                rw [← h1] at h2
                exact hV2 _ h2 _ h3
            refine ⟨mapPres_insert_fresh hP1 hmc,
              idExtends_trans hE1 (idExtends_insert_id m1 c), ?_, rfl, ?_⟩
            · intro a ha b hr
              by_cases hca : c = a
              · rw [← hca] at hr
                exact unchanged_of_idExtends
                  (idExtends_trans hE1 (idExtends_insert_id m1 c)) (hreach b hr)
              · revert ha
                show (if c = a then some c else alookup m1 a) = some a → _
                rw [if_neg hca]
                intro ha
                exact unchanged_of_idExtends (idExtends_insert_id m1 c) (hC1 a ha b hr)
            · intro hveq p hp b hr
              have hp2 : p ∈ ([c] : List Oid) := hp
              rw [List.mem_singleton.mp hp2] at hr
              exact hreach b hr
          next => cases h
  | fuel + 1, .many [], m, inv, vs, m', inv', h, hic => by
    cases h
    refine ⟨mapPres_refl m, idExtends_refl m, hic, rfl, ?_⟩
    intro hveq p hp
    have hp2 : p ∈ ([] : List Oid) := hp
    cases hp2
  | fuel + 1, .many (p :: ps), m, inv, vs, m', inv', h, hic => by
    unfold mapCommitAux at h
    split at h
    next => cases h
    next vs1 s1 heq1 =>
      obtain ⟨m1, inv1⟩ := s1
      split at h
      next => cases h
      next ws s2 heq2 =>
        obtain ⟨m2, inv2⟩ := s2
        obtain ⟨hP1, hE1, hC1, hL1, hV1⟩ :=
          mapCommitAux_outside repo fuel (.one p) m inv vs1 m1 inv1 heq1 hic
        obtain ⟨hP2, hE2, hC2, hL2, hV2⟩ :=
          mapCommitAux_outside repo fuel (.many ps) m1 inv1 ws m2 inv2 heq2 hC1
        cases h
        refine ⟨mapPres_trans hP1 hP2, idExtends_trans hE1 hE2, hC2, ?_, ?_⟩
        · show (vs1 ++ ws).length = (p :: ps).length
          have hL1x : vs1.length = 1 := hL1
          have hL2x : ws.length = ps.length := hL2
          rw [List.length_append, List.length_cons, hL1x, hL2x]
          omega
        · intro hveq q hq b hr
          have hveqx : vs1 ++ ws = p :: ps := hveq
          have hqx : q ∈ p :: ps := hq
          cases vs1 with
          | nil =>
            have hL1x : (0 : Nat) = 1 := hL1
            exact absurd hL1x (by decide)
          | cons a t =>
            have hL1x : t.length + 1 = 1 := hL1
            have ht : t = [] := List.eq_nil_of_length_eq_zero (by omega)
            subst ht
            have hveq2 : a :: ws = p :: ps := hveqx
            injection hveq2 with hap hwps
            rcases List.mem_cons.mp hqx with hq0 | hq1
            · rw [hq0] at hr
              have hap2 : (a :: [] : List Oid) = [p] := by rw [hap]
              exact hV1 hap2 p (show p ∈ ([p] : List Oid) from List.mem_singleton.mpr rfl) b hr
            · exact unchanged_reflect hP1 (hV2 hwps q hq1 b hr)

/-- C6: under ancestry-closedness of the identity entries of the forward map
(the form in which the engine only ever registers identity entries), a
succeeding `map_commit` on an outside parent returns the parent unchanged if
and only if every reflexive ancestor of the parent is unchanged under the
forward map; when some ancestor has been rewritten, the call cannot both
succeed and return the parent unchanged — the non-returning executions are
exactly the `todo!()` hard stop (and the fuel/missing-object artifacts of
the embedding), so no remapping is ever invented. -/
theorem c6_outside_parent_resolver (repo : Repo) (fuel : Nat) (c v : Oid)
    (m inv m' inv' : List (Oid × Oid)) (hic : IdentityClosed repo m)
    (h : mapCommit repo fuel c (m, inv) = .ok (v, (m', inv'))) :
    v = c ↔ ∀ b, Reaches repo c b → Unchanged m b := by
  unfold mapCommit at h
  split at h
  next => cases h
  next vs s1 heq =>
    cases h
    obtain ⟨hP, hE, hC, hL, hV⟩ :=
      mapCommitAux_outside repo fuel (.one c) m inv vs m' inv' heq hic
    have hLx : vs.length = 1 := hL
    cases vs with
    | nil => exact absurd hLx (by decide)
    | cons w t =>
      have hLt : t.length + 1 = 1 := hLx
      have ht : t = [] := List.eq_nil_of_length_eq_zero (by omega)
      subst ht
      constructor
      · intro hvc
        have hwc : w = c := hvc
        intro b hr
        have hw2 : (w :: [] : List Oid) = [c] := by rw [hwc]
        exact hV hw2 c (show c ∈ ([c] : List Oid) from List.mem_singleton.mpr rfl) b hr
      · intro hall
        rcases mapCommitAux_one_value repo fuel c m inv (w :: []) (m', inv') heq with h1 | h1
        · injection h1
        · have h2 : alookup m c = some w := h1
          exact hall c (Reaches.refl c) w h2

/-- Witness for C6: on the two-commit store with empty maps (vacuously
identity-ancestry-closed), resolving the tip succeeds and the equivalence
holds at the returned value. -/
theorem c6_outside_parent_resolver_witness :
    IdentityClosed repoTwo [] ∧
    ((1 : Oid) = 1 ↔ ∀ b, Reaches repoTwo 1 b → Unchanged [] b) :=
  ⟨fun a ha => Option.noConfusion ha,
    c6_outside_parent_resolver repoTwo 5 1 1 [] [] [(1, 1), (0, 0)] [(1, 1), (0, 0)]
      (fun a ha => Option.noConfusion ha) (by rfl)⟩

/-- Witness for C3: the input store of `c1args` is well-formed and the claim
holds at a state of its trace. -/
theorem c3_maps_mutual_inverse_witness :
    WFRepo repoTwo ∧ MutualInv c3wState.map c3wState.inverse :=
  ⟨by unfold WFRepo; decide, c3_maps_mutual_inverse c1args (by unfold WFRepo; decide) c3wState (by
    have h : backportTrace c1args = c3wState :: (backportTrace c1args).tail := rfl
    rw [h]
    exact List.mem_cons_self _ _)⟩

end GitBackport
